import Mathlib

/-!
Verification of the `micro-moka` unsync cache (src/unsync/cache.rs and its
helpers) against its natural-language specification.

The cache core in `src/unsync/cache.rs`, the deque bundle in
`src/unsync/deques.rs` and the entry types in `src/unsync.rs` are translated
directly from the Rust sources.  The crate's `common` module (the intrusive
`Deque`, the `FrequencySketch`, `CacheRegion` and `sketch_capacity`) is not
among the provided sources; those pieces are modelled from the spec, as noted
on each definition.

Rust panics (`unwrap`, `expect`, `unreachable!`, the region-mismatch check in
`unlink_node_ao_from_deque`) are modelled by `Option`: a public operation
returns `none` exactly when the Rust code would panic.
-/

set_option maxHeartbeats 1600000
set_option linter.unusedSectionVars false

namespace MicroMoka

/-- Region tag identifying which deque a node belongs to.
Modelled from the spec: `CacheRegion` lives in the crate's `common` module,
which is not among the provided sources.  Spec sections 4.2 and 9: four
2-bit region values, of which `other` is reserved and must not appear on any
stored handle. -/
inductive CacheRegion where
  | window
  | mainProbation
  | mainProtected
  | other
deriving DecidableEq

/-- A deque node's payload: the shared key handle together with its hash
(`KeyHashDate` in `src/unsync.rs`). -/
structure KeyHashDate (K : Type) where
  key : K
  hash : Nat
deriving DecidableEq

/-- Per-key payload: the value plus the optional tagged handle to the entry's
deque node (`ValueEntry` with `EntryInfo` in `src/unsync.rs`).  The Rust
handle is a tagged pointer; under the cache invariant the keys in a deque are
distinct, so a node is identified here by its region tag and contents. -/
structure ValueEntry (K V : Type) where
  value : V
  access_order_q_node : Option (CacheRegion × KeyHashDate K)
deriving DecidableEq

variable {K V : Type} [DecidableEq K]

/-- `ValueEntry::new` in `src/unsync.rs`: value stored, node handle empty. -/
def ValueEntry.new (value : V) : ValueEntry K V :=
  { value := value, access_order_q_node := none }

/-- `ValueEntry::policy_weight` in `src/unsync.rs`: the constant 1. -/
def ValueEntry.policy_weight (_e : ValueEntry K V) : Nat := 1

/-- `ValueEntry::replace_deq_nodes_with` in `src/unsync.rs`: steal the other
entry's node handle. -/
def ValueEntry.replace_deq_nodes_with (e other : ValueEntry K V) : ValueEntry K V :=
  { e with access_order_q_node := other.access_order_q_node }

/-- The bundle of three access-order deques (`Deques` in
`src/unsync/deques.rs`).  The underlying doubly-linked `Deque` lives in the
missing `common::deque` module and is modelled from the spec (section 4.2) as
a list: head is the LRU front, the last element is the MRU tail.  The field
`protectedQ` renders the source field `protected`, a Lean keyword. -/
structure Deques (K : Type) where
  window : List (KeyHashDate K)
  probation : List (KeyHashDate K)
  protectedQ : List (KeyHashDate K)
deriving DecidableEq

/-- `Deques::default` / `Deques::clear`: all three deques empty. -/
def Deques.empty : Deques K := ⟨[], [], []⟩

/-- `Deques::push_back_ao` in `src/unsync/deques.rs`: allocate a node at the
tail of the deque selected by `region` and store the tagged handle in the
entry.  The `CacheRegion::Other` arm is `unreachable!()` in the source,
modelled as `none`. -/
def Deques.push_back_ao (dqs : Deques K) (region : CacheRegion) (kh : KeyHashDate K)
    (entry : ValueEntry K V) : Option (Deques K × ValueEntry K V) :=
  match region with
  | .window =>
      some ({ dqs with window := dqs.window ++ [kh] },
            { entry with access_order_q_node := some (CacheRegion.window, kh) })
  | .mainProbation =>
      some ({ dqs with probation := dqs.probation ++ [kh] },
            { entry with access_order_q_node := some (CacheRegion.mainProbation, kh) })
  | .mainProtected =>
      some ({ dqs with protectedQ := dqs.protectedQ ++ [kh] },
            { entry with access_order_q_node := some (CacheRegion.mainProtected, kh) })
  | .other => none

/-- `Deques::move_to_back_ao` in `src/unsync/deques.rs`: dispatch on the
handle's tag and move the node to the tail of the owning deque.  A
`debug_assert!` in the source guarantees the node is a member of that deque;
the unlisted tag arm is `unreachable!()`, modelled as `none`. -/
def Deques.move_to_back_ao (dqs : Deques K) (entry : ValueEntry K V) : Option (Deques K) :=
  match entry.access_order_q_node with
  | none => some dqs
  | some (tag, kh) =>
    match tag with
    | .window => some { dqs with window := dqs.window.erase kh ++ [kh] }
    | .mainProbation => some { dqs with probation := dqs.probation.erase kh ++ [kh] }
    | .mainProtected => some { dqs with protectedQ := dqs.protectedQ.erase kh ++ [kh] }
    | .other => none

/-- `Deques::unlink_ao` in `src/unsync/deques.rs`: take the entry's node
handle and unlink the node from the deque selected by its tag (via
`unlink_node_ao`; the region check there always passes because the tag picks
the matching deque, and the `Other` arm is `unreachable!()`). -/
def Deques.unlink_ao (dqs : Deques K) (entry : ValueEntry K V) : Option (Deques K) :=
  match entry.access_order_q_node with
  | none => some dqs
  | some (tag, kh) =>
    match tag with
    | .window => some { dqs with window := dqs.window.erase kh }
    | .mainProbation => some { dqs with probation := dqs.probation.erase kh }
    | .mainProtected => some { dqs with protectedQ := dqs.protectedQ.erase kh }
    | .other => none

/-- `Deques::unlink_ao_from_deque` in `src/unsync/deques.rs`, specialised the
way `evict_lru_entries` uses it: the deque in hand is `probation`, and the
source panics when the handle's tag disagrees with the deque's region. -/
def Deques.unlink_ao_from_probation (probation : List (KeyHashDate K))
    (entry : ValueEntry K V) : Option (List (KeyHashDate K)) :=
  match entry.access_order_q_node with
  | none => some probation
  | some (tag, kh) =>
    if tag = CacheRegion.mainProbation then some (probation.erase kh) else none

/-- Frequency sketch state.
Modelled from the spec: `common::frequency_sketch` is not among the provided
sources.  Spec section 4.1 describes a four-probe count-min table of 4-bit
counters whose probe mixers are not specified; the table is therefore
abstracted to an exact per-hash saturating counter list.  The behaviour the
cache relies on is kept: before `ensure_capacity` the table is unallocated
(`table_len = 0`) and `increment` is a no-op and `frequency` returns 0;
counters saturate at 15; after more than `10 * table_len` increments every
counter is halved and the sample counter resets. -/
structure FrequencySketch where
  table_len : Nat
  counters : List (Nat × Nat)
  sample_size : Nat
deriving DecidableEq

/-- `FrequencySketch::default`: unallocated. -/
def FrequencySketch.empty : FrequencySketch := ⟨0, [], 0⟩

/-- Update-or-insert of a counter in the abstract counter list. -/
def updateCounter (h c : Nat) : List (Nat × Nat) → List (Nat × Nat)
  | [] => [(h, c)]
  | (h0, c0) :: rest => if h0 = h then (h, c) :: rest else (h0, c0) :: updateCounter h c rest

/-- Counter value for a hash in the abstract counter list. -/
def lookupCounter (h : Nat) : List (Nat × Nat) → Nat
  | [] => 0
  | (h0, c0) :: rest => if h0 = h then c0 else lookupCounter h rest

/-- `FrequencySketch::frequency`.  Modelled from the spec (section 4.1):
0 when uninitialised, otherwise the stored estimate. -/
def FrequencySketch.frequency (s : FrequencySketch) (hash : Nat) : Nat :=
  if s.table_len = 0 then 0 else lookupCounter hash s.counters

/-- `FrequencySketch::increment`.  Modelled from the spec (section 4.1):
no-op before `ensure_capacity`; saturates at 15; halves every counter and
resets the sample counter once it exceeds `10 * table_len`. -/
def FrequencySketch.increment (s : FrequencySketch) (hash : Nat) : FrequencySketch :=
  if s.table_len = 0 then s
  else
    let c := lookupCounter hash s.counters
    let counters1 := if c < 15 then updateCounter hash (c + 1) s.counters else s.counters
    let sample1 := s.sample_size + 1
    if sample1 > 10 * s.table_len then
      { s with counters := counters1.map (fun p => (p.1, p.2 / 2)), sample_size := 0 }
    else
      { s with counters := counters1, sample_size := sample1 }

/-- Least power of two that is at least `n` (fuel-based so that it reduces
in the kernel; `fuel = n` suffices since `2 ^ n ≥ n`). -/
def nextPow2Go (n : Nat) : Nat → Nat → Nat
  | 0, p => p
  | fuel + 1, p => if n ≤ p then p else nextPow2Go n fuel (2 * p)

/-- Least power of two that is at least `n`. -/
def nextPow2 (n : Nat) : Nat := nextPow2Go n n 1

/-- `FrequencySketch::ensure_capacity`.  Modelled from the spec (section
4.1): at least `n` counters, rounded up to the next power of two, clamped to
the 64-bit platform ceiling `2^30`, minimum 128. -/
def FrequencySketch.ensure_capacity (s : FrequencySketch) (n : Nat) : FrequencySketch :=
  { s with table_len := max 128 (min (2 ^ 30) (nextPow2 n)) }

/-- `common::sketch_capacity`.  Modelled from the spec: the sketch is sized
from the cache capacity with a floor of 128 (spec sections 4.1 and 4.4, and
seed scenario 5). -/
def sketch_capacity (max_capacity : Nat) : Nat :=
  max max_capacity 128

/-- `EVICTION_BATCH_SIZE` in `src/unsync/cache.rs`. -/
def EVICTION_BATCH_SIZE : Nat := 100

/-- The central hash table, `CacheStore<K, V, S>` =
`HashMap<Rc<K>, ValueEntry<K, V>, S>`, modelled as an association list with
unique keys.  `mapLookup`/`mapInsert`/`mapRemove` mirror `HashMap::get`,
`HashMap::insert` (returning the previous value) and `HashMap::remove`. -/
def mapLookup (k : K) : List (K × ValueEntry K V) → Option (ValueEntry K V)
  | [] => none
  | (k0, e0) :: rest => if k0 = k then some e0 else mapLookup k rest

/-- `HashMap::insert`: replace in place if the key is present (returning the
old entry), otherwise append. -/
def mapInsert (k : K) (e : ValueEntry K V) :
    List (K × ValueEntry K V) → Option (ValueEntry K V) × List (K × ValueEntry K V)
  | [] => (none, [(k, e)])
  | (k0, e0) :: rest =>
    if k0 = k then (some e0, (k, e) :: rest)
    else
      let r := mapInsert k e rest
      (r.1, (k0, e0) :: r.2)

/-- `HashMap::remove`: remove the entry for the key, returning it. -/
def mapRemove (k : K) :
    List (K × ValueEntry K V) → Option (ValueEntry K V) × List (K × ValueEntry K V)
  | [] => (none, [])
  | (k0, e0) :: rest =>
    if k0 = k then (some e0, rest)
    else
      let r := mapRemove k rest
      (r.1, (k0, e0) :: r.2)

/-- The cache state (`Cache<K, V, S>` in `src/unsync/cache.rs`).  The hash
builder is modelled as the hash function `K → Nat` passed to the operations
that hash.  `sketch_enable_calls` is ghost instrumentation counting calls of
`do_enable_frequency_sketch` (hence of `FrequencySketch::ensure_capacity`);
it affects no behaviour. -/
structure Cache (K V : Type) where
  max_capacity : Option Nat
  entry_count : Nat
  cache : List (K × ValueEntry K V)
  deques : Deques K
  frequency_sketch : FrequencySketch
  frequency_sketch_enabled : Bool
  sketch_enable_calls : Nat
deriving DecidableEq

/-- `Cache::with_everything`: fresh empty cache. -/
def Cache.with_everything (max_capacity : Option Nat) (_initial_capacity : Option Nat) :
    Cache K V :=
  { max_capacity := max_capacity
    entry_count := 0
    cache := []
    deques := Deques.empty
    frequency_sketch := FrequencySketch.empty
    frequency_sketch_enabled := false
    sketch_enable_calls := 0 }

/-- `Cache::has_enough_capacity`. -/
def Cache.has_enough_capacity (s : Cache K V) (candidate_weight ws : Nat) : Bool :=
  match s.max_capacity with
  | some limit => decide (ws + candidate_weight ≤ limit)
  | none => true

/-- `Cache::weights_to_evict` (`saturating_sub` is truncated `Nat`
subtraction). -/
def Cache.weights_to_evict (s : Cache K V) : Nat :=
  match s.max_capacity with
  | some limit => s.entry_count - limit
  | none => 0

/-- `Cache::should_enable_frequency_sketch`. -/
def Cache.should_enable_frequency_sketch (s : Cache K V) : Bool :=
  if s.frequency_sketch_enabled then false
  else
    match s.max_capacity with
    | some max_cap => decide (s.entry_count ≥ max_cap / 2)
    | none => false

/-- `Cache::do_enable_frequency_sketch` (also bumps the ghost call
counter). -/
def Cache.do_enable_frequency_sketch (s : Cache K V) (cache_capacity : Nat) : Cache K V :=
  { s with
    frequency_sketch := s.frequency_sketch.ensure_capacity (sketch_capacity cache_capacity)
    frequency_sketch_enabled := true
    sketch_enable_calls := s.sketch_enable_calls + 1 }

/-- `Cache::enable_frequency_sketch`. -/
def Cache.enable_frequency_sketch (s : Cache K V) : Cache K V :=
  match s.max_capacity with
  | some max_cap => s.do_enable_frequency_sketch max_cap
  | none => s

/-- The loop body of `Cache::evict_lru_entries`, recursing on the remaining
fuel (`for _ in 0..EVICTION_BATCH_SIZE`).  State: probation deque, hash
table, `evicted_count`, `evicted_policy_weight`.  Returns `none` when
`unlink_ao_from_deque` would panic. -/
def evictLoop (w2e : Nat) :
    Nat → List (KeyHashDate K) → List (K × ValueEntry K V) → Nat → Nat →
      Option (List (KeyHashDate K) × List (K × ValueEntry K V) × Nat)
  | 0, probation, cache, ec, _ew => some (probation, cache, ec)
  | fuel + 1, probation, cache, ec, ew =>
    if ew ≥ w2e then some (probation, cache, ec)
    else
      match probation.head? with
      | none => some (probation, cache, ec)
      | some node =>
        match mapRemove node.key cache with
        | (some entry, cache1) =>
          match Deques.unlink_ao_from_probation probation entry with
          | some probation1 =>
            evictLoop w2e fuel probation1 cache1 (ec + 1) (ew + entry.policy_weight)
          | none => none
        | (none, _) => evictLoop w2e fuel probation.tail cache ec ew

/-- `Cache::evict_lru_entries`. -/
def Cache.evict_lru_entries (s : Cache K V) : Option (Cache K V) :=
  match evictLoop s.weights_to_evict EVICTION_BATCH_SIZE s.deques.probation s.cache 0 0 with
  | some (probation1, cache1, evicted_count) =>
    some { s with
           cache := cache1
           deques := { s.deques with probation := probation1 }
           entry_count := s.entry_count - evicted_count }
  | none => none

/-- `Cache::contains_key`. -/
def Cache.contains_key (k : K) (s : Cache K V) : Option (Cache K V × Bool) :=
  (s.evict_lru_entries).map fun s1 => (s1, (mapLookup k s1.cache).isSome)

/-- `Cache::record_hit`. -/
def Cache.record_hit (deques : Deques K) (entry : ValueEntry K V) : Option (Deques K) :=
  deques.move_to_back_ao entry

/-- `Cache::get`. -/
def Cache.get (hf : K → Nat) (k : K) (s : Cache K V) : Option (Cache K V × Option V) :=
  (s.evict_lru_entries).bind fun s1 =>
    let s2 := { s1 with frequency_sketch := s1.frequency_sketch.increment (hf k) }
    match mapLookup k s2.cache with
    | some entry =>
      (Cache.record_hit s2.deques entry).map fun dqs => ({ s2 with deques := dqs }, some entry.value)
    | none => some (s2, none)

/-- `EntrySizeAndFrequency` in `src/unsync/cache.rs`. -/
structure EntrySizeAndFrequency where
  weight : Nat
  freq : Nat
deriving DecidableEq

/-- `EntrySizeAndFrequency::new`. -/
def EntrySizeAndFrequency.new (policy_weight : Nat) : EntrySizeAndFrequency :=
  { weight := policy_weight, freq := 0 }

/-- `EntrySizeAndFrequency::add_policy_weight`. -/
def EntrySizeAndFrequency.add_policy_weight (x : EntrySizeAndFrequency) : EntrySizeAndFrequency :=
  { x with weight := x.weight + 1 }

/-- `EntrySizeAndFrequency::add_frequency`. -/
def EntrySizeAndFrequency.add_frequency (x : EntrySizeAndFrequency) (fs : FrequencySketch)
    (hash : Nat) : EntrySizeAndFrequency :=
  { x with freq := x.freq + fs.frequency hash }

/-- `AdmissionResult` in `src/unsync/cache.rs`. -/
inductive AdmissionResult (K : Type) where
  | admitted (victim_nodes : List (KeyHashDate K))
  | rejected
deriving DecidableEq

/-- The victim-aggregation `while` loop of `Cache::admit`, walking the
probation deque from the front. -/
def admitLoop (candidate : EntrySizeAndFrequency) (fs : FrequencySketch)
    (victims : EntrySizeAndFrequency) (victim_nodes : List (KeyHashDate K))
    (remaining : List (KeyHashDate K)) : EntrySizeAndFrequency × List (KeyHashDate K) :=
  if victims.weight < candidate.weight then
    if candidate.freq < victims.freq then (victims, victim_nodes)
    else
      match remaining with
      | [] => (victims, victim_nodes)
      | v :: rest =>
        admitLoop candidate fs ((victims.add_policy_weight).add_frequency fs v.hash)
          (victim_nodes ++ [v]) rest
  else (victims, victim_nodes)
termination_by remaining

/-- `Cache::admit`. -/
def Cache.admit (candidate : EntrySizeAndFrequency) (_cache : List (K × ValueEntry K V))
    (deqs : Deques K) (fs : FrequencySketch) : AdmissionResult K :=
  let r := admitLoop candidate fs { weight := 0, freq := 0 } [] deqs.probation
  if r.1.weight ≥ candidate.weight ∧ candidate.freq > r.1.freq then
    AdmissionResult.admitted r.2
  else AdmissionResult.rejected

/-- The victim-removal loop inside the `Admitted` arm of
`Cache::handle_insert`: remove each victim from the hash table (`expect`
panics when absent, modelled as `none`), unlink its node and decrement
`entry_count`. -/
def removeVictims : List (KeyHashDate K) → Cache K V → Option (Cache K V)
  | [], s => some s
  | v :: rest, s =>
    match mapRemove v.key s.cache with
    | (some vic_entry, cache1) =>
      (s.deques.unlink_ao vic_entry).bind fun dqs =>
        removeVictims rest
          { s with cache := cache1, deques := dqs, entry_count := s.entry_count - 1 }
    | (none, _) => none

/-- `Cache::handle_insert`. -/
def Cache.handle_insert (k : K) (hash : Nat) (policy_weight : Nat) (s : Cache K V) :
    Option (Cache K V) :=
  let has_free_space := s.has_enough_capacity policy_weight s.entry_count
  if has_free_space then
    match mapLookup k s.cache with
    | none => none
    | some entry =>
      match s.deques.push_back_ao CacheRegion.mainProbation ⟨k, hash⟩ entry with
      | none => none
      | some (dqs, entry1) =>
        let s1 := { s with
                    cache := (mapInsert k entry1 s.cache).2
                    deques := dqs
                    entry_count := s.entry_count + 1 }
        some (if s1.should_enable_frequency_sketch then s1.enable_frequency_sketch else s1)
  else
    let too_big := match s.max_capacity with
      | some max => decide (policy_weight > max)
      | none => false
    if too_big then some { s with cache := (mapRemove k s.cache).2 }
    else
      let candidate := (EntrySizeAndFrequency.new policy_weight).add_frequency
        s.frequency_sketch hash
      match Cache.admit candidate s.cache s.deques s.frequency_sketch with
      | AdmissionResult.admitted victim_nodes =>
        (removeVictims victim_nodes s).bind fun s1 =>
          match mapLookup k s1.cache with
          | none => none
          | some entry =>
            match s1.deques.push_back_ao CacheRegion.mainProbation ⟨k, hash⟩ entry with
            | none => none
            | some (dqs, entry1) =>
              let s2 := { s1 with
                          cache := (mapInsert k entry1 s1.cache).2
                          deques := dqs
                          entry_count := s1.entry_count + 1 }
              some (if s2.should_enable_frequency_sketch then s2.enable_frequency_sketch else s2)
      | AdmissionResult.rejected => some { s with cache := (mapRemove k s.cache).2 }

/-- `Cache::handle_update`: steal the old entry's node handle into the fresh
entry in the table (`set_policy_weight` is a no-op) and move the node to the
tail of its deque. -/
def Cache.handle_update (k : K) (_policy_weight : Nat) (old_entry : ValueEntry K V)
    (s : Cache K V) : Option (Cache K V) :=
  match mapLookup k s.cache with
  | none => none
  | some entry =>
    let entry1 := entry.replace_deq_nodes_with old_entry
    let cache1 := (mapInsert k entry1 s.cache).2
    (Deques.move_to_back_ao s.deques entry1).map fun dqs =>
      { s with cache := cache1, deques := dqs }

/-- `Cache::insert`. -/
def Cache.insert (hf : K → Nat) (k : K) (v : V) (s : Cache K V) : Option (Cache K V) :=
  (s.evict_lru_entries).bind fun s1 =>
    let policy_weight := 1
    let entry := ValueEntry.new v
    let r := mapInsert k entry s1.cache
    let s2 := { s1 with cache := r.2 }
    match r.1 with
    | some old_entry => s2.handle_update k policy_weight old_entry
    | none => s2.handle_insert k (hf k) policy_weight

/-- `Cache::invalidate`. -/
def Cache.invalidate (k : K) (s : Cache K V) : Option (Cache K V) :=
  (s.evict_lru_entries).bind fun s1 =>
    match mapRemove k s1.cache with
    | (some entry, cache1) =>
      (s1.deques.unlink_ao entry).map fun dqs =>
        { s1 with cache := cache1, deques := dqs, entry_count := s1.entry_count - 1 }
    | (none, _) => some s1

/-- `Cache::remove`. -/
def Cache.remove (k : K) (s : Cache K V) : Option (Cache K V × Option V) :=
  (s.evict_lru_entries).bind fun s1 =>
    match mapRemove k s1.cache with
    | (some entry, cache1) =>
      (s1.deques.unlink_ao entry).map fun dqs =>
        ({ s1 with cache := cache1, deques := dqs, entry_count := s1.entry_count - 1 },
         some entry.value)
    | (none, _) => some (s1, none)

/-- `Cache::invalidate_all`.  Phase 1 of the source swaps in an empty table,
clears the deques and zeroes `entry_count`; dropping the old table and the
best-effort `try_reserve` (phase 2) do not change the observable state, so
the returned state is exactly the phase-1 state. -/
def Cache.invalidate_all (s : Cache K V) : Cache K V :=
  { s with cache := [], deques := Deques.empty, entry_count := 0 }

/-- The removal loop of `Cache::invalidate_entries_if`: remove each collected
key, unlink its node, and count the removals (applied to `entry_count` at the
end). -/
def invalidateKeysLoop : List K → Nat → Cache K V → Option (Cache K V × Nat)
  | [], n, s => some (s, n)
  | k :: rest, n, s =>
    match mapRemove k s.cache with
    | (some entry, cache1) =>
      (s.deques.unlink_ao entry).bind fun dqs =>
        invalidateKeysLoop rest (n + 1) { s with cache := cache1, deques := dqs }
    | (none, _) => invalidateKeysLoop rest n s

/-- `Cache::invalidate_entries_if`: snapshot the matching keys, then remove
them, finally subtracting the number of invalidated entries from
`entry_count`.  Note: the source does not run `evict_lru_entries` here. -/
def Cache.invalidate_entries_if (p : K → V → Bool) (s : Cache K V) : Option (Cache K V) :=
  let keys_to_invalidate := (s.cache.filter fun kv => p kv.1 kv.2.value).map Prod.fst
  (invalidateKeysLoop keys_to_invalidate 0 s).map fun r =>
    { r.1 with entry_count := r.1.entry_count - r.2 }

/-- A public operation of the cache, for stating properties of operation
sequences. -/
inductive Op (K V : Type) where
  | contains_key (k : K)
  | get (k : K)
  | insert (k : K) (v : V)
  | remove (k : K)
  | invalidate (k : K)
  | invalidate_all
  | invalidate_entries_if (p : K → V → Bool)

/-- Run one public operation, keeping only the cache state. -/
def applyOp (hf : K → Nat) : Op K V → Cache K V → Option (Cache K V)
  | Op.contains_key k, s => (s.contains_key k).map Prod.fst
  | Op.get k, s => (Cache.get hf k s).map Prod.fst
  | Op.insert k v, s => Cache.insert hf k v s
  | Op.remove k, s => (Cache.remove k s).map Prod.fst
  | Op.invalidate k, s => Cache.invalidate k s
  | Op.invalidate_all, s => some s.invalidate_all
  | Op.invalidate_entries_if p, s => Cache.invalidate_entries_if p s

/-- Run a sequence of public operations. -/
def runOps (hf : K → Nat) (s : Cache K V) : List (Op K V) → Option (Cache K V)
  | [] => some s
  | op :: rest => (applyOp hf op s).bind fun s1 => runOps hf s1 rest

/-- The keys of the hash table, in storage order. -/
def keysOf (m : List (K × ValueEntry K V)) : List K := m.map Prod.fst

theorem keysOf_nil : keysOf ([] : List (K × ValueEntry K V)) = [] := rfl

theorem keysOf_cons (p : K × ValueEntry K V) (m : List (K × ValueEntry K V)) :
    keysOf (p :: m) = p.1 :: keysOf m := rfl

theorem keysOf_append (m l : List (K × ValueEntry K V)) :
    keysOf (m ++ l) = keysOf m ++ keysOf l := by
  simp [keysOf]

theorem mapLookup_eq_none {k : K} {m : List (K × ValueEntry K V)} :
    mapLookup k m = none ↔ k ∉ keysOf m := by
  induction m with
  | nil => simp [mapLookup, keysOf]
  | cons p rest ih =>
    obtain ⟨k0, e0⟩ := p
    by_cases h : k0 = k
    · subst h
      simp [mapLookup, keysOf_cons]
    · simp [mapLookup, keysOf_cons, h, ih, Ne.symm h]

theorem mapLookup_isSome {k : K} {m : List (K × ValueEntry K V)} :
    (mapLookup k m).isSome = true ↔ k ∈ keysOf m := by
  induction m with
  | nil => simp [mapLookup, keysOf]
  | cons p rest ih =>
    obtain ⟨k0, e0⟩ := p
    by_cases h : k0 = k
    · subst h
      simp [mapLookup, keysOf_cons]
    · simp [mapLookup, keysOf_cons, h, ih, Ne.symm h]

theorem mapLookup_mem {k : K} {e : ValueEntry K V} {m : List (K × ValueEntry K V)}
    (h : mapLookup k m = some e) : (k, e) ∈ m := by
  induction m with
  | nil => simp [mapLookup] at h
  | cons p rest ih =>
    obtain ⟨k0, e0⟩ := p
    by_cases hk : k0 = k
    · subst hk
      simp [mapLookup] at h
      subst h
      exact List.mem_cons_self _ _
    · simp [mapLookup, hk] at h
      exact List.mem_cons_of_mem _ (ih h)

theorem mapLookup_of_mem {k : K} {e : ValueEntry K V} {m : List (K × ValueEntry K V)}
    (nd : (keysOf m).Nodup) (h : (k, e) ∈ m) : mapLookup k m = some e := by
  induction m with
  | nil => simp at h
  | cons p rest ih =>
    obtain ⟨k0, e0⟩ := p
    rw [keysOf_cons] at nd
    rcases List.mem_cons.1 h with h1 | h1
    · cases h1
      simp [mapLookup]
    · have hk : k0 ≠ k := by
        intro he
        subst he
        exact (List.nodup_cons.1 nd).1 (by
          have := List.mem_map_of_mem Prod.fst h1
          simpa [keysOf] using this)
      simp [mapLookup, hk]
      exact ih (List.nodup_cons.1 nd).2 h1

theorem mapInsert_fst {k : K} {e : ValueEntry K V} {m : List (K × ValueEntry K V)} :
    (mapInsert k e m).1 = mapLookup k m := by
  induction m with
  | nil => rfl
  | cons p rest ih =>
    obtain ⟨k0, e0⟩ := p
    by_cases h : k0 = k <;> simp [mapInsert, mapLookup, h, ih]

theorem mapInsert_snd_not_mem {k : K} {e : ValueEntry K V} {m : List (K × ValueEntry K V)}
    (h : k ∉ keysOf m) : (mapInsert k e m).2 = m ++ [(k, e)] := by
  induction m with
  | nil => rfl
  | cons p rest ih =>
    obtain ⟨k0, e0⟩ := p
    rw [keysOf_cons] at h
    have h0 : k0 ≠ k := fun he => h (he ▸ List.mem_cons_self _ _)
    have h1 : k ∉ keysOf rest := fun hm => h (List.mem_cons_of_mem _ hm)
    simp [mapInsert, h0, ih h1]

theorem mapLookup_mapInsert_self {k : K} {e : ValueEntry K V} {m : List (K × ValueEntry K V)} :
    mapLookup k (mapInsert k e m).2 = some e := by
  induction m with
  | nil => simp [mapInsert, mapLookup]
  | cons p rest ih =>
    obtain ⟨k0, e0⟩ := p
    by_cases h : k0 = k <;> simp [mapInsert, mapLookup, h, ih]

theorem mapLookup_mapInsert_ne {k k1 : K} {e : ValueEntry K V} {m : List (K × ValueEntry K V)}
    (h : k1 ≠ k) : mapLookup k1 (mapInsert k e m).2 = mapLookup k1 m := by
  induction m with
  | nil => simp [mapInsert, mapLookup, Ne.symm h]
  | cons p rest ih =>
    obtain ⟨k0, e0⟩ := p
    by_cases h0 : k0 = k
    · subst h0
      simp [mapInsert, mapLookup, Ne.symm h]
    · by_cases h1 : k0 = k1 <;> simp [mapInsert, mapLookup, h0, h1, h, ih]

theorem keysOf_mapInsert_mem {k : K} {e : ValueEntry K V} {m : List (K × ValueEntry K V)}
    (h : k ∈ keysOf m) : keysOf (mapInsert k e m).2 = keysOf m := by
  induction m with
  | nil => simp [keysOf] at h
  | cons p rest ih =>
    obtain ⟨k0, e0⟩ := p
    by_cases h0 : k0 = k
    · subst h0
      simp [mapInsert, keysOf_cons]
    · rw [keysOf_cons] at h
      have h1 : k ∈ keysOf rest := by
        rcases List.mem_cons.1 h with h2 | h2
        · exact ((h0 h2.symm).elim)
        · exact h2
      simp [mapInsert, h0, keysOf_cons, ih h1]

theorem length_mapInsert_mem {k : K} {e : ValueEntry K V} {m : List (K × ValueEntry K V)}
    (h : k ∈ keysOf m) : ((mapInsert k e m).2).length = m.length := by
  have := keysOf_mapInsert_mem (e := e) h
  have h1 : (keysOf (mapInsert k e m).2).length = (keysOf m).length := by rw [this]
  simpa [keysOf] using h1

theorem mapInsert_mapInsert {k : K} {e1 e2 : ValueEntry K V} {m : List (K × ValueEntry K V)} :
    (mapInsert k e2 (mapInsert k e1 m).2).2 = (mapInsert k e2 m).2 := by
  induction m with
  | nil => simp [mapInsert]
  | cons p rest ih =>
    obtain ⟨k0, e0⟩ := p
    by_cases h : k0 = k <;> simp [mapInsert, h, ih]

theorem mapRemove_fst {k : K} {m : List (K × ValueEntry K V)} :
    (mapRemove k m).1 = mapLookup k m := by
  induction m with
  | nil => rfl
  | cons p rest ih =>
    obtain ⟨k0, e0⟩ := p
    by_cases h : k0 = k <;> simp [mapRemove, mapLookup, h, ih]

theorem mapRemove_snd_none {k : K} {m : List (K × ValueEntry K V)}
    (h : mapLookup k m = none) : (mapRemove k m).2 = m := by
  induction m with
  | nil => rfl
  | cons p rest ih =>
    obtain ⟨k0, e0⟩ := p
    by_cases h0 : k0 = k
    · simp [mapLookup, h0] at h
    · simp [mapLookup, h0] at h
      simp [mapRemove, h0, ih h]

theorem keysOf_mapRemove {k : K} {m : List (K × ValueEntry K V)} :
    keysOf (mapRemove k m).2 = (keysOf m).erase k := by
  induction m with
  | nil => rfl
  | cons p rest ih =>
    obtain ⟨k0, e0⟩ := p
    by_cases h : k0 = k
    · subst h
      simp [mapRemove, keysOf_cons, List.erase_cons_head]
    · simp [mapRemove, keysOf_cons, h, ih, List.erase_cons_tail, Ne.symm h]

theorem length_mapRemove_mem {k : K} {m : List (K × ValueEntry K V)}
    (h : k ∈ keysOf m) : ((mapRemove k m).2).length + 1 = m.length := by
  have h1 : (keysOf (mapRemove k m).2).length = (keysOf m).length - 1 := by
    rw [keysOf_mapRemove]
    exact List.length_erase_of_mem h
  have h2 : 1 ≤ (keysOf m).length := List.length_pos.2 (List.ne_nil_of_mem h)
  have h3 : (keysOf m).length = m.length := by simp [keysOf]
  have h4 : (keysOf (mapRemove k m).2).length = ((mapRemove k m).2).length := by simp [keysOf]
  omega

theorem mapLookup_mapRemove_ne {k k1 : K} {m : List (K × ValueEntry K V)}
    (h : k1 ≠ k) : mapLookup k1 (mapRemove k m).2 = mapLookup k1 m := by
  induction m with
  | nil => rfl
  | cons p rest ih =>
    obtain ⟨k0, e0⟩ := p
    by_cases h0 : k0 = k
    · subst h0
      simp [mapRemove, mapLookup, Ne.symm h]
    · by_cases h1 : k0 = k1 <;> simp [mapRemove, mapLookup, h0, h1, h, ih]

theorem mapRemove_append_mem {k : K} {m l : List (K × ValueEntry K V)}
    (h : k ∈ keysOf m) :
    mapRemove k (m ++ l) = ((mapRemove k m).1, (mapRemove k m).2 ++ l) := by
  induction m with
  | nil => simp [keysOf] at h
  | cons p rest ih =>
    obtain ⟨k0, e0⟩ := p
    by_cases h0 : k0 = k
    · subst h0
      simp [mapRemove]
    · rw [keysOf_cons] at h
      have h1 : k ∈ keysOf rest := by
        rcases List.mem_cons.1 h with h2 | h2
        · exact ((h0 h2.symm).elim)
        · exact h2
      simp [mapRemove, h0, ih h1]

theorem mapInsert_append_self {k : K} {e1 e2 : ValueEntry K V} {m : List (K × ValueEntry K V)}
    (h : k ∉ keysOf m) : (mapInsert k e2 (m ++ [(k, e1)])).2 = m ++ [(k, e2)] := by
  induction m with
  | nil => simp [mapInsert]
  | cons p rest ih =>
    obtain ⟨k0, e0⟩ := p
    rw [keysOf_cons] at h
    have h0 : k0 ≠ k := fun he => h (he ▸ List.mem_cons_self _ _)
    have h1 : k ∉ keysOf rest := fun hm => h (List.mem_cons_of_mem _ hm)
    simp [mapInsert, h0, ih h1]

/-- Executable check that every probation node resolves to a live hash-table
entry whose tagged handle points back at exactly this node. -/
def probConsistent (s : Cache K V) : Bool :=
  s.deques.probation.all fun kh =>
    match mapLookup kh.key s.cache with
    | some e => decide (e.access_order_q_node = some (CacheRegion.mainProbation, kh))
    | none => false

/-- The global cache invariant, which holds between public operations.  It
includes the size invariant of the spec (section 3) together with the
structural facts needed to re-establish it. -/
structure Inv (s : Cache K V) : Prop where
  count_table : s.entry_count = s.cache.length
  count_prob : s.entry_count = s.deques.probation.length
  window_nil : s.deques.window = []
  protected_nil : s.deques.protectedQ = []
  under_cap : s.entry_count ≤ s.max_capacity.getD s.entry_count
  table_nodup : (keysOf s.cache).Nodup
  prob_nodup : (s.deques.probation.map KeyHashDate.key).Nodup
  prob_consistent : probConsistent s = true
  sketch_off : s.frequency_sketch_enabled = false →
    s.frequency_sketch = FrequencySketch.empty ∧ s.sketch_enable_calls = 0
  sketch_on : s.frequency_sketch_enabled = true → s.sketch_enable_calls = 1

theorem Inv.under_cap_of_some {s : Cache K V} (inv : Inv s) {C : Nat}
    (h : s.max_capacity = some C) : s.entry_count ≤ C := by
  have := inv.under_cap
  rw [h] at this
  exact this

theorem Inv.prob_lookup {s : Cache K V} (inv : Inv s) {kh : KeyHashDate K}
    (h : kh ∈ s.deques.probation) :
    ∃ e, mapLookup kh.key s.cache = some e ∧
      e.access_order_q_node = some (CacheRegion.mainProbation, kh) := by
  have h1 := (List.all_eq_true.1 inv.prob_consistent) kh h
  revert h1
  cases he : mapLookup kh.key s.cache with
  | none => intro h1; simp at h1
  | some e =>
    intro h1
    exact ⟨e, rfl, of_decide_eq_true h1⟩

theorem Inv.prob_keys_subset {s : Cache K V} (inv : Inv s) :
    ∀ k ∈ s.deques.probation.map KeyHashDate.key, k ∈ keysOf s.cache := by
  intro k hk
  obtain ⟨kh, hkh, hke⟩ := List.mem_map.1 hk
  obtain ⟨e, he, _⟩ := inv.prob_lookup hkh
  subst hke
  exact mapLookup_isSome.1 (by simp [he])

theorem Inv.key_mem_prob {s : Cache K V} (inv : Inv s) {k : K}
    (h : k ∈ keysOf s.cache) : k ∈ s.deques.probation.map KeyHashDate.key := by
  have hsub : (s.deques.probation.map KeyHashDate.key).toFinset ⊆ (keysOf s.cache).toFinset := by
    intro x hx
    exact List.mem_toFinset.2 (inv.prob_keys_subset x (List.mem_toFinset.1 hx))
  have hc1 : (s.deques.probation.map KeyHashDate.key).toFinset.card =
      s.deques.probation.length := by
    rw [List.toFinset_card_of_nodup inv.prob_nodup]
    simp
  have hc2 : (keysOf s.cache).toFinset.card = s.cache.length := by
    rw [List.toFinset_card_of_nodup inv.table_nodup]
    simp [keysOf]
  have heq : (s.deques.probation.map KeyHashDate.key).toFinset = (keysOf s.cache).toFinset := by
    apply Finset.eq_of_subset_of_card_le hsub
    rw [hc1, hc2, ← inv.count_table, ← inv.count_prob]
  have : k ∈ (s.deques.probation.map KeyHashDate.key).toFinset := by
    rw [heq]
    exact List.mem_toFinset.2 h
  exact List.mem_toFinset.1 this

theorem Inv.table_node {s : Cache K V} (inv : Inv s) {k : K} {e : ValueEntry K V}
    (h : mapLookup k s.cache = some e) :
    ∃ kh, kh ∈ s.deques.probation ∧ kh.key = k ∧
      e.access_order_q_node = some (CacheRegion.mainProbation, kh) := by
  have hk : k ∈ keysOf s.cache := mapLookup_isSome.1 (by simp [h])
  obtain ⟨kh, hkh, hke⟩ := List.mem_map.1 (inv.key_mem_prob hk)
  obtain ⟨e1, he1, hn1⟩ := inv.prob_lookup hkh
  rw [hke, h] at he1
  cases he1
  exact ⟨kh, hkh, hke, hn1⟩

theorem weights_to_evict_zero {s : Cache K V} (inv : Inv s) : s.weights_to_evict = 0 := by
  cases hc : s.max_capacity with
  | none => simp [Cache.weights_to_evict, hc]
  | some C =>
    have := inv.under_cap_of_some hc
    simp [Cache.weights_to_evict, hc]
    omega

theorem evictLoop_w2e_zero {fuel : Nat} {prob : List (KeyHashDate K)}
    {cache : List (K × ValueEntry K V)} {ec : Nat} :
    evictLoop 0 fuel prob cache ec 0 = some (prob, cache, ec) := by
  cases fuel <;> simp [evictLoop]

/-- Under the invariant the eviction sweep is the identity: there is never a
positive weight to evict. -/
theorem evict_id {s : Cache K V} (inv : Inv s) : s.evict_lru_entries = some s := by
  unfold Cache.evict_lru_entries
  rw [weights_to_evict_zero inv, evictLoop_w2e_zero]
  simp

theorem increment_empty (h : Nat) :
    FrequencySketch.empty.increment h = FrequencySketch.empty := rfl

theorem probConsistent_eq_true {s : Cache K V} :
    probConsistent s = true ↔
      ∀ kh ∈ s.deques.probation, ∃ e, mapLookup kh.key s.cache = some e ∧
        e.access_order_q_node = some (CacheRegion.mainProbation, kh) := by
  unfold probConsistent
  rw [List.all_eq_true]
  constructor
  · intro h kh hm
    have h1 := h kh hm
    revert h1
    cases he : mapLookup kh.key s.cache with
    | none => intro h1; simp at h1
    | some e => intro h1; exact ⟨e, rfl, of_decide_eq_true h1⟩
  · intro h kh hm
    obtain ⟨e, he, hn⟩ := h kh hm
    simp [he, hn]

theorem prob_key_inj {s : Cache K V} (inv : Inv s) :
    ∀ kh1 ∈ s.deques.probation, ∀ kh2 ∈ s.deques.probation,
      kh1.key = kh2.key → kh1 = kh2 :=
  List.inj_on_of_nodup_map inv.prob_nodup

theorem prob_mem_nodup {s : Cache K V} (inv : Inv s) : s.deques.probation.Nodup :=
  inv.prob_nodup.of_map

theorem perm_move {kh : KeyHashDate K} {l : List (KeyHashDate K)} (h : kh ∈ l) :
    (l.erase kh ++ [kh]).Perm l :=
  (List.perm_append_singleton kh (l.erase kh)).trans (List.perm_cons_erase h).symm

/-- Characterisation of `invalidate` on a missing key: nothing happens. -/
theorem invalidate_eq_of_none {s : Cache K V} (inv : Inv s) {k : K}
    (h : mapLookup k s.cache = none) : Cache.invalidate k s = some s := by
  have hrm : mapRemove k s.cache = (none, s.cache) := by
    rcases hx : mapRemove k s.cache with ⟨o, c1⟩
    have h1 : o = none := by
      have := @mapRemove_fst K V _ k s.cache
      rw [hx] at this
      rw [← h]
      exact this
    have h2 : c1 = s.cache := by
      have := mapRemove_snd_none h
      rw [hx] at this
      exact this
    rw [h1, h2]
  simp [Cache.invalidate, evict_id inv, hrm]

/-- Characterisation of `invalidate` on a present key: the entry is removed
from the hash table, its node unlinked from probation, and `entry_count`
decremented. -/
theorem invalidate_eq_of_some {s : Cache K V} (inv : Inv s) {k : K} {e : ValueEntry K V}
    {kh : KeyHashDate K} (h : mapLookup k s.cache = some e)
    (hn : e.access_order_q_node = some (CacheRegion.mainProbation, kh)) :
    Cache.invalidate k s = some
      { s with cache := (mapRemove k s.cache).2
               deques := { s.deques with probation := s.deques.probation.erase kh }
               entry_count := s.entry_count - 1 } := by
  have hrm : mapRemove k s.cache = (some e, (mapRemove k s.cache).2) := by
    rcases hx : mapRemove k s.cache with ⟨o, c1⟩
    have h1 : o = some e := by
      have := @mapRemove_fst K V _ k s.cache
      rw [hx] at this
      rw [← h]
      exact this
    rw [h1]
  simp only [Cache.invalidate, evict_id inv, Option.some_bind]
  rw [hrm]
  simp [Deques.unlink_ao, hn]

/-- Characterisation of `remove`: same state as `invalidate`, and additionally
the removed value is returned. -/
theorem remove_eq_of_none {s : Cache K V} (inv : Inv s) {k : K}
    (h : mapLookup k s.cache = none) : Cache.remove k s = some (s, none) := by
  have hrm : mapRemove k s.cache = (none, s.cache) := by
    rcases hx : mapRemove k s.cache with ⟨o, c1⟩
    have h1 : o = none := by
      have := @mapRemove_fst K V _ k s.cache
      rw [hx] at this
      rw [← h]
      exact this
    have h2 : c1 = s.cache := by
      have := mapRemove_snd_none h
      rw [hx] at this
      exact this
    rw [h1, h2]
  simp [Cache.remove, evict_id inv, hrm]

theorem remove_eq_of_some {s : Cache K V} (inv : Inv s) {k : K} {e : ValueEntry K V}
    {kh : KeyHashDate K} (h : mapLookup k s.cache = some e)
    (hn : e.access_order_q_node = some (CacheRegion.mainProbation, kh)) :
    Cache.remove k s = some
      ({ s with cache := (mapRemove k s.cache).2
                deques := { s.deques with probation := s.deques.probation.erase kh }
                entry_count := s.entry_count - 1 }, some e.value) := by
  have hrm : mapRemove k s.cache = (some e, (mapRemove k s.cache).2) := by
    rcases hx : mapRemove k s.cache with ⟨o, c1⟩
    have h1 : o = some e := by
      have := @mapRemove_fst K V _ k s.cache
      rw [hx] at this
      rw [← h]
      exact this
    rw [h1]
  simp only [Cache.remove, evict_id inv, Option.some_bind]
  rw [hrm]
  simp [Deques.unlink_ao, hn]

/-- Invariant preservation for the removal-shaped state update. -/
theorem inv_remove_state {s : Cache K V} (inv : Inv s) {k : K} {e : ValueEntry K V}
    {kh : KeyHashDate K} (h : mapLookup k s.cache = some e)
    (hn : e.access_order_q_node = some (CacheRegion.mainProbation, kh)) :
    Inv { s with cache := (mapRemove k s.cache).2
                 deques := { s.deques with probation := s.deques.probation.erase kh }
                 entry_count := s.entry_count - 1 } := by
  have hkmem : k ∈ keysOf s.cache := mapLookup_isSome.1 (by simp [h])
  obtain ⟨kh1, hkh1, hkey1, hn1⟩ := inv.table_node h
  have hkh : kh1 = kh := by
    rw [hn1] at hn
    have h5 := Option.some.inj hn
    exact congrArg Prod.snd h5
  have hkhmem : kh ∈ s.deques.probation := hkh ▸ hkh1
  have hkey : kh.key = k := hkh ▸ hkey1
  refine ⟨?_, ?_, ?_, ?_, ?_, ?_, ?_, ?_, ?_, ?_⟩
  · have := length_mapRemove_mem hkmem
    have h2 := inv.count_table
    simp only []
    omega
  · have := List.length_erase_of_mem hkhmem
    have h2 := inv.count_prob
    have h3 : 1 ≤ s.deques.probation.length := List.length_pos.2 (List.ne_nil_of_mem hkhmem)
    simp only []
    omega
  · exact inv.window_nil
  · exact inv.protected_nil
  · have := inv.under_cap
    cases hc : s.max_capacity with
    | none => simp
    | some C =>
      rw [hc] at this
      simp only [Option.getD_some] at this ⊢
      omega
  · rw [keysOf_mapRemove]
    exact inv.table_nodup.erase k
  · exact inv.prob_nodup.sublist ((s.deques.probation.erase_sublist kh).map KeyHashDate.key)
  · rw [probConsistent_eq_true]
    intro kh2 hm2
    have hm2e : kh2 ∈ s.deques.probation.erase kh := hm2
    have hm2p : kh2 ∈ s.deques.probation := List.erase_subset _ _ hm2e
    have hne : kh2 ≠ kh := ((prob_mem_nodup inv).mem_erase_iff.1 hm2e).1
    have hkne : kh2.key ≠ k := by
      intro hkeq
      exact hne (prob_key_inj inv kh2 hm2p kh hkhmem (hkeq.trans hkey.symm))
    obtain ⟨e2, he2, hn2⟩ := inv.prob_lookup hm2p
    refine ⟨e2, ?_, hn2⟩
    show mapLookup kh2.key (mapRemove k s.cache).2 = some e2
    rw [mapLookup_mapRemove_ne hkne]
    exact he2
  · exact inv.sketch_off
  · exact inv.sketch_on

theorem mapLookup_append_left {k : K} {e : ValueEntry K V} {m l : List (K × ValueEntry K V)}
    (h : mapLookup k m = some e) : mapLookup k (m ++ l) = some e := by
  induction m with
  | nil => simp [mapLookup] at h
  | cons p rest ih =>
    obtain ⟨k0, e0⟩ := p
    by_cases h0 : k0 = k
    · simp [mapLookup, h0] at h ⊢
      exact h
    · simp [mapLookup, h0] at h ⊢
      exact ih h

theorem mapLookup_append_self {k : K} {e : ValueEntry K V} {m : List (K × ValueEntry K V)}
    (h : k ∉ keysOf m) : mapLookup k (m ++ [(k, e)]) = some e := by
  induction m with
  | nil => simp [mapLookup]
  | cons p rest ih =>
    obtain ⟨k0, e0⟩ := p
    rw [keysOf_cons] at h
    have h0 : k0 ≠ k := fun he => h (he ▸ List.mem_cons_self _ _)
    have h1 : k ∉ keysOf rest := fun hm => h (List.mem_cons_of_mem _ hm)
    simp [mapLookup, h0, ih h1]

/-- Characterisation of `contains_key` under the invariant: state unchanged,
result is hash-table membership. -/
theorem contains_key_eq {s : Cache K V} (inv : Inv s) (k : K) :
    Cache.contains_key k s = some (s, (mapLookup k s.cache).isSome) := by
  simp [Cache.contains_key, evict_id inv]

/-- Characterisation of `get` on a miss: only the frequency sketch is
bumped. -/
theorem get_eq_of_none {s : Cache K V} (inv : Inv s) {hf : K → Nat} {k : K}
    (h : mapLookup k s.cache = none) :
    Cache.get hf k s = some
      ({ s with frequency_sketch := s.frequency_sketch.increment (hf k) }, none) := by
  simp [Cache.get, evict_id inv, h]

/-- Characterisation of `get` on a hit: the sketch is bumped, the entry's
node moves to the probation tail, and a borrow of the value is returned. -/
theorem get_eq_of_some {s : Cache K V} (inv : Inv s) {hf : K → Nat} {k : K}
    {e : ValueEntry K V} {kh : KeyHashDate K} (h : mapLookup k s.cache = some e)
    (hn : e.access_order_q_node = some (CacheRegion.mainProbation, kh)) :
    Cache.get hf k s = some
      ({ s with frequency_sketch := s.frequency_sketch.increment (hf k)
                deques := { s.deques with
                            probation := s.deques.probation.erase kh ++ [kh] } },
       some e.value) := by
  simp [Cache.get, evict_id inv, h, Cache.record_hit, Deques.move_to_back_ao, hn]

/-- Common facts for re-establishing the invariant after a move-to-back of a
node known to be in probation, with the hash table's keys unchanged. -/
theorem inv_move_state {s : Cache K V} (inv : Inv s) {k : K} {e : ValueEntry K V}
    {kh : KeyHashDate K} (h : mapLookup k s.cache = some e)
    (hn : e.access_order_q_node = some (CacheRegion.mainProbation, kh)) :
    kh ∈ s.deques.probation ∧ kh.key = k ∧
      (s.deques.probation.erase kh ++ [kh]).Perm s.deques.probation := by
  obtain ⟨kh1, hkh1, hkey1, hn1⟩ := inv.table_node h
  have hkh : kh1 = kh := by
    rw [hn1] at hn
    exact congrArg Prod.snd (Option.some.inj hn)
  have hmem : kh ∈ s.deques.probation := hkh ▸ hkh1
  exact ⟨hmem, hkh ▸ hkey1, perm_move hmem⟩

/-- Invariant preservation for the state produced by a `get` hit. -/
theorem inv_get_hit_state {s : Cache K V} (inv : Inv s) {hf : K → Nat} {k : K}
    {e : ValueEntry K V} {kh : KeyHashDate K} (h : mapLookup k s.cache = some e)
    (hn : e.access_order_q_node = some (CacheRegion.mainProbation, kh)) :
    Inv { s with frequency_sketch := s.frequency_sketch.increment (hf k)
                 deques := { s.deques with
                             probation := s.deques.probation.erase kh ++ [kh] } } := by
  obtain ⟨hmem, hkey, hperm⟩ := inv_move_state inv h hn
  refine ⟨inv.count_table, ?_, inv.window_nil, inv.protected_nil, inv.under_cap,
    inv.table_nodup, ?_, ?_, ?_, inv.sketch_on⟩
  · rw [inv.count_prob]
    exact (hperm.length_eq).symm
  · exact ((hperm.map KeyHashDate.key).nodup_iff).2 inv.prob_nodup
  · rw [probConsistent_eq_true]
    intro kh2 hm2
    have hm2p : kh2 ∈ s.deques.probation := hperm.mem_iff.1 hm2
    exact inv.prob_lookup hm2p
  · intro hoff
    obtain ⟨h1, h2⟩ := inv.sketch_off hoff
    rw [h1, increment_empty]
    exact ⟨rfl, h2⟩

/-- Invariant preservation for a sketch-only update on a miss `get`. -/
theorem inv_get_miss_state {s : Cache K V} (inv : Inv s) {hf : K → Nat} {k : K} :
    Inv { s with frequency_sketch := s.frequency_sketch.increment (hf k) } := by
  refine ⟨inv.count_table, inv.count_prob, inv.window_nil, inv.protected_nil, inv.under_cap,
    inv.table_nodup, inv.prob_nodup, ?_, ?_, inv.sketch_on⟩
  · rw [probConsistent_eq_true]
    intro kh2 hm2
    exact inv.prob_lookup hm2
  · intro hoff
    obtain ⟨h1, h2⟩ := inv.sketch_off hoff
    rw [h1, increment_empty]
    exact ⟨rfl, h2⟩

/-- Characterisation of `insert` on a present key (the update path): the new
entry steals the old entry's node handle, the node moves to the tail of
probation, the value is replaced, and nothing else changes. -/
theorem insert_update_eq {s : Cache K V} (inv : Inv s) {hf : K → Nat} {k : K} {v : V}
    {old : ValueEntry K V} {kh : KeyHashDate K} (h : mapLookup k s.cache = some old)
    (hn : old.access_order_q_node = some (CacheRegion.mainProbation, kh)) :
    Cache.insert hf k v s = some
      { s with cache := (mapInsert k ⟨v, old.access_order_q_node⟩ s.cache).2
               deques := { s.deques with
                           probation := s.deques.probation.erase kh ++ [kh] } } := by
  have hfst : (mapInsert k (ValueEntry.new v) s.cache).1 = some old := by
    rw [mapInsert_fst]
    exact h
  have hlook : mapLookup k (mapInsert k (ValueEntry.new v) s.cache).2 =
      some (ValueEntry.new v) := mapLookup_mapInsert_self
  simp only [Cache.insert, evict_id inv, Option.some_bind, hfst]
  simp only [Cache.handle_update, hlook]
  have hrepl : (ValueEntry.new v).replace_deq_nodes_with old =
      (⟨v, old.access_order_q_node⟩ : ValueEntry K V) := rfl
  rw [hrepl]
  have hmtb : Deques.move_to_back_ao (K := K) (V := V) s.deques ⟨v, old.access_order_q_node⟩ =
      some { s.deques with probation := s.deques.probation.erase kh ++ [kh] } := by
    simp [Deques.move_to_back_ao, hn]
  simp only [mapInsert_mapInsert, hmtb]
  rfl

/-- Invariant preservation for the update-path state. -/
theorem inv_insert_update_state {s : Cache K V} (inv : Inv s) {k : K} {v : V}
    {old : ValueEntry K V} {kh : KeyHashDate K} (h : mapLookup k s.cache = some old)
    (hn : old.access_order_q_node = some (CacheRegion.mainProbation, kh)) :
    Inv { s with cache := (mapInsert k ⟨v, old.access_order_q_node⟩ s.cache).2
                 deques := { s.deques with
                             probation := s.deques.probation.erase kh ++ [kh] } } := by
  obtain ⟨hmem, hkey, hperm⟩ := inv_move_state inv h hn
  have hkmem : k ∈ keysOf s.cache := mapLookup_isSome.1 (by simp [h])
  refine ⟨?_, ?_, inv.window_nil, inv.protected_nil, inv.under_cap, ?_, ?_, ?_,
    inv.sketch_off, inv.sketch_on⟩
  · rw [inv.count_table]
    exact (length_mapInsert_mem hkmem).symm
  · rw [inv.count_prob]
    exact (hperm.length_eq).symm
  · rw [keysOf_mapInsert_mem hkmem]
    exact inv.table_nodup
  · exact ((hperm.map KeyHashDate.key).nodup_iff).2 inv.prob_nodup
  · rw [probConsistent_eq_true]
    intro kh2 hm2
    have hm2p : kh2 ∈ s.deques.probation := hperm.mem_iff.1 hm2
    by_cases hk2 : kh2.key = k
    · have hkh2 : kh2 = kh := prob_key_inj inv kh2 hm2p kh hmem (hk2.trans hkey.symm)
      refine ⟨⟨v, old.access_order_q_node⟩, ?_, ?_⟩
      · rw [hk2]
        exact mapLookup_mapInsert_self
      · rw [hn, hkh2]
    · obtain ⟨e2, he2, hn2⟩ := inv.prob_lookup hm2p
      refine ⟨e2, ?_, hn2⟩
      rw [mapLookup_mapInsert_ne hk2]
      exact he2

/-- The final step of both linking branches of `handle_insert`: enable the
frequency sketch if `should_enable_frequency_sketch` says so. -/
def maybeEnable (s : Cache K V) : Cache K V :=
  if s.should_enable_frequency_sketch then s.enable_frequency_sketch else s

/-- The state produced by linking a fresh candidate: entry appended to the
hash table carrying the probation-tagged node handle, node pushed at the
probation tail, `entry_count` bumped. -/
def freshLinkState (hf : K → Nat) (k : K) (v : V) (s : Cache K V) : Cache K V :=
  { s with
    cache := s.cache ++ [(k, ⟨v, some (CacheRegion.mainProbation, ⟨k, hf k⟩)⟩)]
    deques := { s.deques with probation := s.deques.probation ++ [⟨k, hf k⟩] }
    entry_count := s.entry_count + 1 }

theorem has_enough_capacity_def (s : Cache K V) (w ws : Nat) :
    s.has_enough_capacity w ws =
      match s.max_capacity with
      | some limit => decide (ws + w ≤ limit)
      | none => true := rfl

/-- Characterisation of `insert` on an absent key with free capacity: the
candidate is linked unconditionally and the sketch possibly enabled. -/
theorem insert_fresh_free_eq {s : Cache K V} (inv : Inv s) {hf : K → Nat} {k : K} {v : V}
    (h : mapLookup k s.cache = none)
    (hfree : s.has_enough_capacity 1 s.entry_count = true) :
    Cache.insert hf k v s = some (maybeEnable (freshLinkState hf k v s)) := by
  have hknot : k ∉ keysOf s.cache := mapLookup_eq_none.1 h
  have hfst : (mapInsert k (ValueEntry.new v) s.cache).1 = none := by
    rw [mapInsert_fst]
    exact h
  have hsnd : (mapInsert k (ValueEntry.new v) s.cache).2 =
      s.cache ++ [(k, ValueEntry.new v)] := mapInsert_snd_not_mem hknot
  simp only [Cache.insert, evict_id inv, Option.some_bind, hfst]
  rw [has_enough_capacity_def] at hfree
  have hlook : mapLookup k (mapInsert k (ValueEntry.new v) s.cache).2 =
      some (ValueEntry.new v) := mapLookup_mapInsert_self
  have hins2 : (mapInsert k
      (⟨v, some (CacheRegion.mainProbation, ⟨k, hf k⟩)⟩ : ValueEntry K V)
      (mapInsert k (ValueEntry.new v) s.cache).2).2 =
      s.cache ++ [(k, ⟨v, some (CacheRegion.mainProbation, ⟨k, hf k⟩)⟩)] := by
    rw [mapInsert_mapInsert]
    exact mapInsert_snd_not_mem hknot
  simp only [Cache.handle_insert, has_enough_capacity_def, hfree, hlook,
    Deques.push_back_ao, if_true]
  simp only [ValueEntry.new] at hins2
  simp only [hins2, maybeEnable, freshLinkState, ValueEntry.new]

theorem should_enable_elim {s : Cache K V} (h : s.should_enable_frequency_sketch = true) :
    s.frequency_sketch_enabled = false ∧
      ∃ C, s.max_capacity = some C ∧ s.entry_count ≥ C / 2 := by
  unfold Cache.should_enable_frequency_sketch at h
  by_cases hf : s.frequency_sketch_enabled
  · rw [if_pos hf] at h
    exact absurd h (by simp)
  · rw [if_neg hf] at h
    refine ⟨by simpa using hf, ?_⟩
    revert h
    cases hc : s.max_capacity with
    | none => intro h; exact absurd h (by simp)
    | some C => intro h; exact ⟨C, rfl, of_decide_eq_true h⟩

theorem inv_maybeEnable {s : Cache K V} (inv : Inv s) : Inv (maybeEnable s) := by
  by_cases hse : s.should_enable_frequency_sketch = true
  · obtain ⟨hflag, C, hC, _⟩ := should_enable_elim hse
    have hcalls : s.sketch_enable_calls = 0 := (inv.sketch_off hflag).2
    unfold maybeEnable
    rw [if_pos hse]
    unfold Cache.enable_frequency_sketch
    rw [hC]
    unfold Cache.do_enable_frequency_sketch
    refine ⟨inv.count_table, inv.count_prob, inv.window_nil, inv.protected_nil,
      inv.under_cap, inv.table_nodup, inv.prob_nodup, ?_, ?_, ?_⟩
    · rw [probConsistent_eq_true]
      intro kh hm
      exact inv.prob_lookup hm
    · intro hoff
      simp at hoff
    · intro hon
      simp [hcalls]
  · unfold maybeEnable
    rw [if_neg hse]
    exact inv

theorem inv_freshLink {s : Cache K V} (inv : Inv s) {hf : K → Nat} {k : K} {v : V}
    (hknot : k ∉ keysOf s.cache)
    (hcap : s.entry_count + 1 ≤ s.max_capacity.getD (s.entry_count + 1)) :
    Inv (freshLinkState hf k v s) := by
  have hkprob : k ∉ s.deques.probation.map KeyHashDate.key := by
    intro hm
    exact hknot (inv.prob_keys_subset k hm)
  have hcache : (freshLinkState hf k v s).cache =
      s.cache ++ [(k, ⟨v, some (CacheRegion.mainProbation, ⟨k, hf k⟩)⟩)] := rfl
  have hprob : (freshLinkState hf k v s).deques.probation =
      s.deques.probation ++ [(⟨k, hf k⟩ : KeyHashDate K)] := rfl
  refine ⟨?_, ?_, inv.window_nil, inv.protected_nil, hcap, ?_, ?_, ?_,
    inv.sketch_off, inv.sketch_on⟩
  · rw [hcache, List.length_append, ← inv.count_table]
    rfl
  · rw [hprob, List.length_append, ← inv.count_prob]
    rfl
  · rw [hcache, keysOf_append]
    rw [List.nodup_append]
    refine ⟨inv.table_nodup, by simp [keysOf], ?_⟩
    intro a ha hb
    have : a = k := by simpa [keysOf] using hb
    exact hknot (this ▸ ha)
  · rw [hprob, List.map_append, List.nodup_append]
    refine ⟨inv.prob_nodup, by simp, ?_⟩
    intro a ha hb
    have : a = k := by simpa using hb
    exact hkprob (this ▸ ha)
  · rw [probConsistent_eq_true]
    intro kh2 hm2
    have hm2a : kh2 ∈ s.deques.probation ++ [⟨k, hf k⟩] := hm2
    rcases List.mem_append.1 hm2a with hold | hnew
    · have hk2 : kh2.key ≠ k := by
        intro heq
        exact hkprob (heq ▸ List.mem_map_of_mem KeyHashDate.key hold)
      obtain ⟨e2, he2, hn2⟩ := inv.prob_lookup hold
      refine ⟨e2, ?_, hn2⟩
      rw [hcache]
      exact mapLookup_append_left he2
    · have : kh2 = ⟨k, hf k⟩ := by simpa using hnew
      subst this
      refine ⟨⟨v, some (CacheRegion.mainProbation, ⟨k, hf k⟩)⟩, ?_, rfl⟩
      rw [hcache]
      exact mapLookup_append_self hknot

theorem cap_of_free {s : Cache K V} (hfree : s.has_enough_capacity 1 s.entry_count = true) :
    s.entry_count + 1 ≤ s.max_capacity.getD (s.entry_count + 1) := by
  rw [has_enough_capacity_def] at hfree
  cases hc : s.max_capacity with
  | none => simp
  | some C =>
    rw [hc] at hfree
    have := of_decide_eq_true hfree
    simpa using this

theorem mapRemove_append_self {k : K} {e : ValueEntry K V} {m : List (K × ValueEntry K V)}
    (h : k ∉ keysOf m) : (mapRemove k (m ++ [(k, e)])).2 = m := by
  induction m with
  | nil => simp [mapRemove]
  | cons p rest ih =>
    obtain ⟨k0, e0⟩ := p
    rw [keysOf_cons] at h
    have h0 : k0 ≠ k := fun he => h (he ▸ List.mem_cons_self _ _)
    have h1 : k ∉ keysOf rest := fun hm => h (List.mem_cons_of_mem _ hm)
    simp [mapRemove, h0, ih h1]

/-- Unit-weight characterisation of the victim walk: with a candidate of
weight 1 the loop collects at most one victim, the head of probation. -/
theorem admitLoop_unit (fs : FrequencySketch) (c : Nat) (prob : List (KeyHashDate K)) :
    admitLoop ⟨1, c⟩ fs ⟨0, 0⟩ [] prob =
      match prob with
      | [] => (⟨0, 0⟩, [])
      | hd :: _ => (⟨1, fs.frequency hd.hash⟩, [hd]) := by
  cases prob with
  | nil => simp [admitLoop]
  | cons hd tl =>
    rw [admitLoop.eq_def]
    simp only [show (0 : Nat) < 1 from by omega, if_true]
    have hlt : ¬ c < 0 := by omega
    rw [if_neg hlt]
    simp only [EntrySizeAndFrequency.add_policy_weight, EntrySizeAndFrequency.add_frequency]
    rw [admitLoop.eq_def]
    norm_num

/-- `Cache::admit` at the unit candidate the cache always uses: admitted with
exactly the probation head as victim iff the head exists and the candidate's
frequency strictly exceeds the head's. -/
theorem admit_unit (cache : List (K × ValueEntry K V)) (deqs : Deques K)
    (fs : FrequencySketch) (hash : Nat) :
    Cache.admit ((EntrySizeAndFrequency.new 1).add_frequency fs hash) cache deqs fs =
      match deqs.probation with
      | [] => AdmissionResult.rejected
      | hd :: _ =>
        if fs.frequency hd.hash < fs.frequency hash then AdmissionResult.admitted [hd]
        else AdmissionResult.rejected := by
  have hcand : (EntrySizeAndFrequency.new 1).add_frequency fs hash =
      (⟨1, fs.frequency hash⟩ : EntrySizeAndFrequency) := by
    simp [EntrySizeAndFrequency.new, EntrySizeAndFrequency.add_frequency]
  rw [hcand]
  unfold Cache.admit
  rw [admitLoop_unit]
  cases deqs.probation with
  | nil => norm_num
  | cons hd tl =>
    by_cases hf : fs.frequency hd.hash < fs.frequency hash
    · simp [hf]
    · simp [hf]

/-- Characterisation of `insert` on an absent key when the unit weight alone
exceeds `max_capacity` (only possible with `max_capacity = 0`): the candidate
is removed again and the state is unchanged. -/
theorem insert_fresh_toobig_eq {s : Cache K V} (inv : Inv s) {hf : K → Nat} {k : K} {v : V}
    {C : Nat} (h : mapLookup k s.cache = none)
    (hnofree : s.has_enough_capacity 1 s.entry_count = false)
    (hmax : s.max_capacity = some C) (hC : C < 1) :
    Cache.insert hf k v s = some s := by
  have hknot : k ∉ keysOf s.cache := mapLookup_eq_none.1 h
  have hfst : (mapInsert k (ValueEntry.new v) s.cache).1 = none := by
    rw [mapInsert_fst]
    exact h
  have hsnd : (mapInsert k (ValueEntry.new v) s.cache).2 =
      s.cache ++ [(k, ValueEntry.new v)] := mapInsert_snd_not_mem hknot
  simp only [Cache.insert, evict_id inv, Option.some_bind, hfst]
  have hnof2 : decide (s.entry_count + 1 ≤ C) = false := by
    rw [has_enough_capacity_def, hmax] at hnofree
    exact hnofree
  simp only [Cache.handle_insert, has_enough_capacity_def, hmax, hnof2, Bool.false_eq_true,
    if_false]
  have hbig : decide (1 > C) = true := by
    rw [decide_eq_true_iff]
    omega
  simp only [hbig, if_true]
  rw [hsnd, mapRemove_append_self hknot, ← hmax]

/-- Characterisation of `insert` on an absent key with no free capacity when
admission rejects (empty probation, or candidate frequency not strictly
greater than the head victim's): the candidate's key is rolled back and the
state is unchanged. -/
theorem insert_fresh_rejected_eq {s : Cache K V} (inv : Inv s) {hf : K → Nat} {k : K} {v : V}
    {C : Nat} (h : mapLookup k s.cache = none)
    (hnofree : s.has_enough_capacity 1 s.entry_count = false)
    (hmax : s.max_capacity = some C) (hfit : 1 ≤ C)
    (hrej : match s.deques.probation with
      | [] => True
      | hd :: _ => ¬ (s.frequency_sketch.frequency hd.hash <
          s.frequency_sketch.frequency (hf k))) :
    Cache.insert hf k v s = some s := by
  have hknot : k ∉ keysOf s.cache := mapLookup_eq_none.1 h
  have hfst : (mapInsert k (ValueEntry.new v) s.cache).1 = none := by
    rw [mapInsert_fst]
    exact h
  have hsnd : (mapInsert k (ValueEntry.new v) s.cache).2 =
      s.cache ++ [(k, ValueEntry.new v)] := mapInsert_snd_not_mem hknot
  simp only [Cache.insert, evict_id inv, Option.some_bind, hfst]
  have hnof2 : decide (s.entry_count + 1 ≤ C) = false := by
    rw [has_enough_capacity_def, hmax] at hnofree
    exact hnofree
  simp only [Cache.handle_insert, has_enough_capacity_def, hmax, hnof2, Bool.false_eq_true,
    if_false]
  have hbig : decide (1 > C) = false := by
    rw [decide_eq_false_iff_not]
    omega
  simp only [hbig, Bool.false_eq_true, if_false]
  rw [admit_unit]
  revert hrej
  cases hp : s.deques.probation with
  | nil =>
    intro _
    simp only []
    rw [hsnd, mapRemove_append_self hknot, ← hmax]
  | cons hd tl =>
    intro hrej
    simp only [if_neg hrej]
    rw [hsnd, mapRemove_append_self hknot, ← hmax]

/-- Characterisation of `insert` on an absent key with no free capacity when
admission succeeds: the probation head is removed from table and deque, and
the candidate is linked at the probation tail. -/
theorem insert_fresh_admitted_eq {s : Cache K V} (inv : Inv s) {hf : K → Nat} {k : K} {v : V}
    {C : Nat} {hd : KeyHashDate K} {tl : List (KeyHashDate K)}
    (h : mapLookup k s.cache = none)
    (hnofree : s.has_enough_capacity 1 s.entry_count = false)
    (hmax : s.max_capacity = some C) (hfit : 1 ≤ C)
    (hprob : s.deques.probation = hd :: tl)
    (hfreq : s.frequency_sketch.frequency hd.hash < s.frequency_sketch.frequency (hf k)) :
    Cache.insert hf k v s = some (maybeEnable (freshLinkState hf k v
      { s with cache := (mapRemove hd.key s.cache).2
               deques := { s.deques with probation := s.deques.probation.erase hd }
               entry_count := s.entry_count - 1 })) := by
  have hknot : k ∉ keysOf s.cache := mapLookup_eq_none.1 h
  have hfst : (mapInsert k (ValueEntry.new v) s.cache).1 = none := by
    rw [mapInsert_fst]
    exact h
  have hsnd : (mapInsert k (ValueEntry.new v) s.cache).2 =
      s.cache ++ [(k, ValueEntry.new v)] := mapInsert_snd_not_mem hknot
  have hdmem : hd ∈ s.deques.probation := by
    rw [hprob]
    exact List.mem_cons_self _ _
  obtain ⟨vic, hvic, hvicn⟩ := inv.prob_lookup hdmem
  have hdkmem : hd.key ∈ keysOf s.cache := mapLookup_isSome.1 (by simp [hvic])
  have hvfst : (mapRemove hd.key s.cache).1 = some vic := by
    rw [mapRemove_fst]
    exact hvic
  have hknotv : k ∉ keysOf (mapRemove hd.key s.cache).2 := by
    rw [keysOf_mapRemove]
    intro hm
    exact hknot (List.erase_subset _ _ hm)
  simp only [Cache.insert, evict_id inv, Option.some_bind, hfst]
  have hnof2 : decide (s.entry_count + 1 ≤ C) = false := by
    rw [has_enough_capacity_def, hmax] at hnofree
    exact hnofree
  simp only [Cache.handle_insert, has_enough_capacity_def, hmax, hnof2, Bool.false_eq_true,
    if_false]
  have hbig : decide (1 > C) = false := by
    rw [decide_eq_false_iff_not]
    omega
  simp only [hbig, Bool.false_eq_true, if_false]
  rw [admit_unit]
  rw [hprob]
  simp only [if_pos hfreq]
  simp only [removeVictims]
  rw [hsnd, mapRemove_append_mem hdkmem, hvfst]
  simp only [Deques.unlink_ao, hvicn, if_pos rfl, Option.some_bind]
  rw [mapLookup_append_self hknotv]
  simp only [Deques.push_back_ao, Option.some_bind]
  rw [mapInsert_append_self hknotv, ← hmax, hprob]
  simp only [maybeEnable, freshLinkState, ValueEntry.new]

/-- Invariant preservation for the admitted fresh-insert state. -/
theorem inv_insert_admitted_state {s : Cache K V} (inv : Inv s) {hf : K → Nat} {k : K} {v : V}
    {hd : KeyHashDate K} (h : mapLookup k s.cache = none)
    (hdmem : hd ∈ s.deques.probation) :
    Inv (maybeEnable (freshLinkState hf k v
      { s with cache := (mapRemove hd.key s.cache).2
               deques := { s.deques with probation := s.deques.probation.erase hd }
               entry_count := s.entry_count - 1 })) := by
  obtain ⟨vic, hvic, hvicn⟩ := inv.prob_lookup hdmem
  have hinvvic := inv_remove_state inv hvic hvicn
  have hknot : k ∉ keysOf s.cache := mapLookup_eq_none.1 h
  have hknotv : k ∉ keysOf (mapRemove hd.key s.cache).2 := by
    rw [keysOf_mapRemove]
    intro hm
    exact hknot (List.erase_subset _ _ hm)
  have hec1 : 1 ≤ s.entry_count := by
    rw [inv.count_prob]
    exact List.length_pos.2 (List.ne_nil_of_mem hdmem)
  apply inv_maybeEnable
  apply inv_freshLink hinvvic hknotv
  show s.entry_count - 1 + 1 ≤ Option.getD s.max_capacity (s.entry_count - 1 + 1)
  cases hc : s.max_capacity with
  | none => simp
  | some C =>
    have := inv.under_cap_of_some hc
    simp only [Option.getD_some]
    omega

/-- Invariant preservation for `invalidate_all`. -/
theorem inv_invalidate_all {s : Cache K V} (inv : Inv s) : Inv s.invalidate_all := by
  refine ⟨rfl, rfl, rfl, rfl, ?_, ?_, ?_, ?_, inv.sketch_off, inv.sketch_on⟩
  · simp [Cache.invalidate_all]
  · simp [Cache.invalidate_all, keysOf]
  · simp [Cache.invalidate_all, Deques.empty]
  · rw [probConsistent_eq_true]
    intro kh hm
    simp [Cache.invalidate_all, Deques.empty] at hm

/-- Invariant of the initial state. -/
theorem inv_init (mc ic : Option Nat) : Inv (Cache.with_everything (K := K) (V := V) mc ic) := by
  refine ⟨rfl, rfl, rfl, rfl, ?_, ?_, ?_, ?_, ?_, ?_⟩
  · simp [Cache.with_everything]
  · simp [Cache.with_everything, keysOf]
  · simp [Cache.with_everything, Deques.empty]
  · rw [probConsistent_eq_true]
    intro kh hm
    simp [Cache.with_everything, Deques.empty] at hm
  · intro _
    exact ⟨rfl, rfl⟩
  · intro habs
    simp [Cache.with_everything] at habs

/-- The table-to-deque direction of consistency, from the structural parts
alone (used inside the `invalidate_entries_if` loop, where `entry_count` is
reconciled only at the end). -/
theorem table_node_of_parts {s : Cache K V}
    (htn : (keysOf s.cache).Nodup) (hpn : (s.deques.probation.map KeyHashDate.key).Nodup)
    (hpc : probConsistent s = true) (hlen : s.cache.length = s.deques.probation.length)
    {k : K} {e : ValueEntry K V} (h : mapLookup k s.cache = some e) :
    ∃ kh, kh ∈ s.deques.probation ∧ kh.key = k ∧
      e.access_order_q_node = some (CacheRegion.mainProbation, kh) := by
  have hpc1 := probConsistent_eq_true.1 hpc
  have hsub : (s.deques.probation.map KeyHashDate.key).toFinset ⊆ (keysOf s.cache).toFinset := by
    intro x hx
    obtain ⟨kh, hkh, hke⟩ := List.mem_map.1 (List.mem_toFinset.1 hx)
    obtain ⟨e1, he1, _⟩ := hpc1 kh hkh
    exact List.mem_toFinset.2 (hke ▸ mapLookup_isSome.1 (by simp [he1]))
  have hc1 : (s.deques.probation.map KeyHashDate.key).toFinset.card =
      s.deques.probation.length := by
    rw [List.toFinset_card_of_nodup hpn]
    simp
  have hc2 : (keysOf s.cache).toFinset.card = s.cache.length := by
    rw [List.toFinset_card_of_nodup htn]
    simp [keysOf]
  have heq : (s.deques.probation.map KeyHashDate.key).toFinset =
      (keysOf s.cache).toFinset := by
    apply Finset.eq_of_subset_of_card_le hsub
    rw [hc1, hc2, hlen]
  have hk : k ∈ keysOf s.cache := mapLookup_isSome.1 (by simp [h])
  have hkm : k ∈ s.deques.probation.map KeyHashDate.key :=
    List.mem_toFinset.1 (heq ▸ List.mem_toFinset.2 hk)
  obtain ⟨kh, hkh, hke⟩ := List.mem_map.1 hkm
  obtain ⟨e1, he1, hn1⟩ := hpc1 kh hkh
  rw [hke, h] at he1
  cases he1
  exact ⟨kh, hkh, hke, hn1⟩

/-- Specification of the `invalidate_entries_if` removal loop: structure is
preserved; the removal count plus the remaining table size equals the initial
count plus the initial size; everything outside table and probation is
untouched. -/
theorem invalidateKeysLoop_spec (keys : List K) : ∀ (n : Nat) (s : Cache K V),
    (keysOf s.cache).Nodup →
    (s.deques.probation.map KeyHashDate.key).Nodup →
    probConsistent s = true →
    s.cache.length = s.deques.probation.length →
    ∃ s1 n1, invalidateKeysLoop keys n s = some (s1, n1) ∧
      (keysOf s1.cache).Nodup ∧
      (s1.deques.probation.map KeyHashDate.key).Nodup ∧
      probConsistent s1 = true ∧
      s1.cache.length = s1.deques.probation.length ∧
      n1 + s1.cache.length = n + s.cache.length ∧
      s1.cache.length ≤ s.cache.length ∧
      s1.entry_count = s.entry_count ∧
      s1.max_capacity = s.max_capacity ∧
      s1.deques.window = s.deques.window ∧
      s1.deques.protectedQ = s.deques.protectedQ ∧
      s1.frequency_sketch = s.frequency_sketch ∧
      s1.frequency_sketch_enabled = s.frequency_sketch_enabled ∧
      s1.sketch_enable_calls = s.sketch_enable_calls := by
  induction keys with
  | nil =>
    intro n s h1 h2 h3 h4
    exact ⟨s, n, rfl, h1, h2, h3, h4, rfl, le_refl _, rfl, rfl, rfl, rfl, rfl, rfl, rfl⟩
  | cons k rest ih =>
    intro n s h1 h2 h3 h4
    cases hl : mapLookup k s.cache with
    | none =>
      have hrm : mapRemove k s.cache = (none, s.cache) := by
        rcases hx : mapRemove k s.cache with ⟨o, c1⟩
        have ho : o = none := by
          have := @mapRemove_fst K V _ k s.cache
          rw [hx] at this
          rw [← hl]
          exact this
        have hc : c1 = s.cache := by
          have := mapRemove_snd_none hl
          rw [hx] at this
          exact this
        rw [ho, hc]
      obtain ⟨s1, n1, heq, hrest⟩ := ih n s h1 h2 h3 h4
      refine ⟨s1, n1, ?_, hrest⟩
      simp only [invalidateKeysLoop, hrm]
      exact heq
    | some e =>
      obtain ⟨kh, hkh, hkey, hn⟩ := table_node_of_parts h1 h2 h3 h4 hl
      have hrm : mapRemove k s.cache = (some e, (mapRemove k s.cache).2) := by
        rcases hx : mapRemove k s.cache with ⟨o, c1⟩
        have ho : o = some e := by
          have := @mapRemove_fst K V _ k s.cache
          rw [hx] at this
          rw [← hl]
          exact this
        rw [ho]
      have hkmem : k ∈ keysOf s.cache := mapLookup_isSome.1 (by simp [hl])
      have hunlink : Deques.unlink_ao s.deques e =
          some { s.deques with probation := s.deques.probation.erase kh } := by
        simp [Deques.unlink_ao, hn]
      set s2 : Cache K V :=
        { s with cache := (mapRemove k s.cache).2
                 deques := { s.deques with probation := s.deques.probation.erase kh } } with hs2
      have hpn2 : s2.deques.probation = s.deques.probation.erase kh := rfl
      have h1b : (keysOf s2.cache).Nodup := by
        show (keysOf (mapRemove k s.cache).2).Nodup
        rw [keysOf_mapRemove]
        exact h1.erase k
      have h2b : (s2.deques.probation.map KeyHashDate.key).Nodup := by
        rw [hpn2]
        exact h2.sublist ((List.erase_sublist kh s.deques.probation).map KeyHashDate.key)
      have hnodup_mem : s.deques.probation.Nodup := h2.of_map
      have h3b : probConsistent s2 = true := by
        rw [probConsistent_eq_true]
        intro kh2 hm2
        have hm2e : kh2 ∈ s.deques.probation.erase kh := hm2
        have hm2p : kh2 ∈ s.deques.probation := List.erase_subset _ _ hm2e
        have hne : kh2 ≠ kh := (hnodup_mem.mem_erase_iff.1 hm2e).1
        have hkne : kh2.key ≠ k := by
          intro hkeq
          exact hne (List.inj_on_of_nodup_map h2 hm2p hkh (hkeq.trans hkey.symm))
        obtain ⟨e2, he2, hn2⟩ := (probConsistent_eq_true.1 h3) kh2 hm2p
        refine ⟨e2, ?_, hn2⟩
        show mapLookup kh2.key (mapRemove k s.cache).2 = some e2
        rw [mapLookup_mapRemove_ne hkne]
        exact he2
      have hlen1 : ((mapRemove k s.cache).2).length + 1 = s.cache.length :=
        length_mapRemove_mem hkmem
      have hlen2 : (s.deques.probation.erase kh).length + 1 = s.deques.probation.length := by
        have := List.length_erase_of_mem hkh
        have hpos : 1 ≤ s.deques.probation.length :=
          List.length_pos.2 (List.ne_nil_of_mem hkh)
        omega
      have h4b : s2.cache.length = s2.deques.probation.length := by
        show ((mapRemove k s.cache).2).length = (s.deques.probation.erase kh).length
        omega
      obtain ⟨s1, n1, heq, k1, k2, k3, k4, k5, k6, k7, k8, k9, k10, k11, k12, k13⟩ :=
        ih (n + 1) s2 h1b h2b h3b h4b
      refine ⟨s1, n1, ?_, k1, k2, k3, k4, ?_, ?_, k7, k8, k9, k10, k11, k12, k13⟩
      · simp only [invalidateKeysLoop]
        rw [hrm]
        simp only [hunlink, Option.some_bind]
        exact heq
      · have : s2.cache.length = s.cache.length - 1 := by
          show ((mapRemove k s.cache).2).length = s.cache.length - 1
          omega
        omega
      · have : s2.cache.length = s.cache.length - 1 := by
          show ((mapRemove k s.cache).2).length = s.cache.length - 1
          omega
        omega

/-- `invalidate_entries_if` succeeds under the invariant and preserves it;
the counters, capacity and sketch state are untouched and `entry_count` can
only shrink. -/
theorem invalidate_entries_if_inv {s : Cache K V} (inv : Inv s) (p : K → V → Bool) :
    ∃ s2, Cache.invalidate_entries_if p s = some s2 ∧ Inv s2 ∧
      s2.entry_count ≤ s.entry_count ∧
      s2.max_capacity = s.max_capacity ∧
      s2.frequency_sketch = s.frequency_sketch ∧
      s2.frequency_sketch_enabled = s.frequency_sketch_enabled ∧
      s2.sketch_enable_calls = s.sketch_enable_calls := by
  obtain ⟨s1, n1, heq, k1, k2, k3, k4, k5, k6, k7, k8, k9, k10, k11, k12, k13⟩ :=
    invalidateKeysLoop_spec ((s.cache.filter fun kv => p kv.1 kv.2.value).map Prod.fst) 0 s
      inv.table_nodup inv.prob_nodup inv.prob_consistent
      (by rw [← inv.count_table, ← inv.count_prob])
  refine ⟨{ s1 with entry_count := s1.entry_count - n1 }, ?_, ?_, ?_, k8, k11, k12, k13⟩
  · simp only [Cache.invalidate_entries_if, heq, Option.map_some']
  · refine ⟨?_, ?_, k9.trans inv.window_nil, k10.trans inv.protected_nil, ?_, k1, k2, ?_, ?_, ?_⟩
    · show s1.entry_count - n1 = s1.cache.length
      rw [k7, inv.count_table]
      omega
    · show s1.entry_count - n1 = s1.deques.probation.length
      rw [k7, inv.count_table]
      omega
    · show s1.entry_count - n1 ≤ Option.getD s1.max_capacity (s1.entry_count - n1)
      rw [k7, k8]
      have := inv.under_cap
      cases hc : s.max_capacity with
      | none => simp
      | some C =>
        rw [hc] at this
        simp only [Option.getD_some] at this ⊢
        omega
    · rw [probConsistent_eq_true] at k3 ⊢
      intro kh hm
      exact k3 kh hm
    · intro hoff
      rw [k12] at hoff
      obtain ⟨a, b⟩ := inv.sketch_off hoff
      rw [k11, k13]
      exact ⟨a, b⟩
    · intro hon
      rw [k12] at hon
      rw [k13]
      exact inv.sketch_on hon
  · show s1.entry_count - n1 ≤ s.entry_count
    rw [k7]
    omega

/-- Every public operation, run from an invariant state, returns (no panic)
and preserves the invariant. -/
theorem applyOp_inv {s : Cache K V} (inv : Inv s) (hf : K → Nat) (op : Op K V) :
    ∃ s1, applyOp hf op s = some s1 ∧ Inv s1 := by
  cases op with
  | contains_key k =>
    refine ⟨s, ?_, inv⟩
    simp [applyOp, contains_key_eq inv]
  | get k =>
    cases hl : mapLookup k s.cache with
    | none =>
      refine ⟨_, ?_, @inv_get_miss_state K V _ s inv hf k⟩
      simp [applyOp, get_eq_of_none inv hl]
    | some e =>
      obtain ⟨kh, hkh, hkey, hn⟩ := inv.table_node hl
      refine ⟨_, ?_, @inv_get_hit_state K V _ s inv hf k e kh hl hn⟩
      simp [applyOp, get_eq_of_some inv hl hn]
  | insert k v =>
    cases hl : mapLookup k s.cache with
    | some old =>
      obtain ⟨kh, hkh, hkey, hn⟩ := inv.table_node hl
      exact ⟨_, insert_update_eq inv hl hn, inv_insert_update_state inv hl hn⟩
    | none =>
      cases hfree : s.has_enough_capacity 1 s.entry_count with
      | true =>
        exact ⟨_, insert_fresh_free_eq inv hl hfree,
          inv_maybeEnable (inv_freshLink inv (mapLookup_eq_none.1 hl) (cap_of_free hfree))⟩
      | false =>
        cases hc : s.max_capacity with
        | none =>
          rw [has_enough_capacity_def, hc] at hfree
          simp at hfree
        | some C =>
          by_cases hfit : 1 ≤ C
          · cases hp : s.deques.probation with
            | nil =>
              refine ⟨s, ?_, inv⟩
              exact insert_fresh_rejected_eq inv hl hfree hc hfit (by rw [hp]; trivial)
            | cons hd tl =>
              by_cases hfq : s.frequency_sketch.frequency hd.hash <
                  s.frequency_sketch.frequency (hf k)
              · have hdm : hd ∈ s.deques.probation := by
                  rw [hp]
                  exact List.mem_cons_self _ _
                exact ⟨_, insert_fresh_admitted_eq inv hl hfree hc hfit hp hfq,
                  inv_insert_admitted_state inv hl hdm⟩
              · exact ⟨s, insert_fresh_rejected_eq inv hl hfree hc hfit (by rw [hp]; exact hfq),
                  inv⟩
          · have hC0 : C < 1 := by omega
            exact ⟨s, insert_fresh_toobig_eq inv hl hfree hc hC0, inv⟩
  | remove k =>
    cases hl : mapLookup k s.cache with
    | none =>
      refine ⟨s, ?_, inv⟩
      simp [applyOp, remove_eq_of_none inv hl]
    | some e =>
      obtain ⟨kh, hkh, hkey, hn⟩ := inv.table_node hl
      refine ⟨_, ?_, inv_remove_state inv hl hn⟩
      simp [applyOp, remove_eq_of_some inv hl hn]
  | invalidate k =>
    cases hl : mapLookup k s.cache with
    | none =>
      refine ⟨s, ?_, inv⟩
      simp [applyOp, invalidate_eq_of_none inv hl]
    | some e =>
      obtain ⟨kh, hkh, hkey, hn⟩ := inv.table_node hl
      refine ⟨_, ?_, inv_remove_state inv hl hn⟩
      simp [applyOp, invalidate_eq_of_some inv hl hn]
  | invalidate_all =>
    exact ⟨_, rfl, inv_invalidate_all inv⟩
  | invalidate_entries_if p =>
    obtain ⟨s2, heq, hinv, _⟩ := invalidate_entries_if_inv inv p
    exact ⟨s2, heq, hinv⟩

/-- Sequences of public operations preserve the invariant and never panic. -/
theorem runOps_inv (hf : K → Nat) (ops : List (Op K V)) :
    ∀ s : Cache K V, Inv s → ∃ s1, runOps hf s ops = some s1 ∧ Inv s1 := by
  induction ops with
  | nil => intro s inv; exact ⟨s, rfl, inv⟩
  | cons op rest ih =>
    intro s inv
    obtain ⟨s1, heq, hinv1⟩ := applyOp_inv inv hf op
    obtain ⟨s2, heq2, hinv2⟩ := ih s1 hinv1
    refine ⟨s2, ?_, hinv2⟩
    simp only [runOps, heq, Option.some_bind]
    exact heq2

theorem runOps_inv_of_eq {hf : K → Nat} {ops : List (Op K V)} {s s1 : Cache K V}
    (inv : Inv s) (h : runOps hf s ops = some s1) : Inv s1 := by
  obtain ⟨s2, heq, hinv⟩ := runOps_inv hf ops s inv
  rw [h] at heq
  cases heq
  exact hinv

/-- How one public operation may change the sketch-related state: either no
enable happened (flag, ghost call counter unchanged; an empty disabled sketch
stays empty; with the flag off, an operation that leaves `entry_count` below
half capacity cannot have crossed it), or the one-shot enable fired. -/
def SketchStep (s s1 : Cache K V) : Prop :=
  s1.max_capacity = s.max_capacity ∧
  ((s1.frequency_sketch_enabled = s.frequency_sketch_enabled ∧
    s1.sketch_enable_calls = s.sketch_enable_calls ∧
    (s.frequency_sketch_enabled = false → s.frequency_sketch = FrequencySketch.empty →
      s1.frequency_sketch = FrequencySketch.empty) ∧
    (s.frequency_sketch_enabled = false → ∀ C, s.max_capacity = some C →
      s.entry_count < C / 2 → s1.entry_count < C / 2)) ∨
   (s.frequency_sketch_enabled = false ∧ s1.frequency_sketch_enabled = true ∧
    s1.sketch_enable_calls = s.sketch_enable_calls + 1 ∧
    ∃ C, s.max_capacity = some C ∧ C / 2 ≤ s1.entry_count ∧
      s1.frequency_sketch = s.frequency_sketch.ensure_capacity (sketch_capacity C)))

theorem evict_frame {s s1 : Cache K V} (h : s.evict_lru_entries = some s1) :
    s1.max_capacity = s.max_capacity ∧
    s1.frequency_sketch = s.frequency_sketch ∧
    s1.frequency_sketch_enabled = s.frequency_sketch_enabled ∧
    s1.sketch_enable_calls = s.sketch_enable_calls ∧
    s1.entry_count ≤ s.entry_count := by
  unfold Cache.evict_lru_entries at h
  rcases hl : evictLoop s.weights_to_evict EVICTION_BATCH_SIZE s.deques.probation s.cache 0 0
    with _ | ⟨p1, c1, n1⟩
  · rw [hl] at h
    simp at h
  · rw [hl] at h
    simp only [Option.some.injEq] at h
    subst h
    refine ⟨rfl, rfl, rfl, rfl, ?_⟩
    simp only []
    omega

theorem removeVictims_frame (vns : List (KeyHashDate K)) :
    ∀ {s s1 : Cache K V}, removeVictims vns s = some s1 →
    s1.max_capacity = s.max_capacity ∧
    s1.frequency_sketch = s.frequency_sketch ∧
    s1.frequency_sketch_enabled = s.frequency_sketch_enabled ∧
    s1.sketch_enable_calls = s.sketch_enable_calls ∧
    s1.entry_count ≤ s.entry_count := by
  induction vns with
  | nil =>
    intro s s1 h
    simp only [removeVictims, Option.some.injEq] at h
    subst h
    exact ⟨rfl, rfl, rfl, rfl, le_refl _⟩
  | cons v rest ih =>
    intro s s1 h
    simp only [removeVictims] at h
    rcases hrm : mapRemove v.key s.cache with ⟨o, c1⟩
    cases o with
    | none =>
      simp only [hrm] at h
      exact absurd h (by simp)
    | some e =>
      simp only [hrm] at h
      rcases hu : Deques.unlink_ao s.deques e with _ | dqs
      · simp only [hu] at h
        exact absurd h (by simp)
      · simp only [hu, Option.some_bind] at h
        obtain ⟨a, b, c, d, e1⟩ := ih h
        refine ⟨a, b, c, d, ?_⟩
        refine le_trans e1 ?_
        simp only []
        omega

theorem invalidateKeysLoop_frame (keys : List K) :
    ∀ {n : Nat} {s : Cache K V} {s1 : Cache K V} {n1 : Nat},
    invalidateKeysLoop keys n s = some (s1, n1) →
    s1.max_capacity = s.max_capacity ∧
    s1.frequency_sketch = s.frequency_sketch ∧
    s1.frequency_sketch_enabled = s.frequency_sketch_enabled ∧
    s1.sketch_enable_calls = s.sketch_enable_calls ∧
    s1.entry_count = s.entry_count := by
  induction keys with
  | nil =>
    intro n s s1 n1 h
    simp only [invalidateKeysLoop, Option.some.injEq, Prod.mk.injEq] at h
    obtain ⟨h1, _⟩ := h
    subst h1
    exact ⟨rfl, rfl, rfl, rfl, rfl⟩
  | cons k rest ih =>
    intro n s s1 n1 h
    simp only [invalidateKeysLoop] at h
    rcases hrm : mapRemove k s.cache with ⟨o, c1⟩
    cases o with
    | none =>
      simp only [hrm] at h
      exact ih h
    | some e =>
      simp only [hrm] at h
      rcases hu : Deques.unlink_ao s.deques e with _ | dqs
      · simp only [hu] at h
        exact absurd h (by simp)
      · simp only [hu, Option.some_bind] at h
        obtain ⟨a, b, c, d, e1⟩ := ih h
        exact ⟨a, b, c, d, e1⟩

theorem should_enable_false_elim {s : Cache K V}
    (h : s.should_enable_frequency_sketch = false)
    (hflag : s.frequency_sketch_enabled = false) {C : Nat}
    (hmax : s.max_capacity = some C) : s.entry_count < C / 2 := by
  unfold Cache.should_enable_frequency_sketch at h
  rw [if_neg (by simp [hflag]), hmax] at h
  have := of_decide_eq_false h
  omega

theorem enable_eq {s : Cache K V} {C : Nat} (hmax : s.max_capacity = some C) :
    s.enable_frequency_sketch =
      { s with
        frequency_sketch := s.frequency_sketch.ensure_capacity (sketch_capacity C)
        frequency_sketch_enabled := true
        sketch_enable_calls := s.sketch_enable_calls + 1 } := by
  simp only [Cache.enable_frequency_sketch, hmax, Cache.do_enable_frequency_sketch]

/-- SketchStep for the post-link `if should_enable … then enable … else` step
shared by the two linking branches of `handle_insert`. -/
theorem sketchStep_enable_step {s s4 : Cache K V}
    (hmaxeq : s4.max_capacity = s.max_capacity)
    (hflageq : s4.frequency_sketch_enabled = s.frequency_sketch_enabled)
    (hcallseq : s4.sketch_enable_calls = s.sketch_enable_calls)
    (hsk : s4.frequency_sketch = s.frequency_sketch) :
    SketchStep s (if s4.should_enable_frequency_sketch = true
      then s4.enable_frequency_sketch else s4) := by
  by_cases hse : s4.should_enable_frequency_sketch = true
  · obtain ⟨hflag4, C, hmax4, hge⟩ := should_enable_elim hse
    rw [if_pos hse, enable_eq hmax4]
    refine ⟨hmaxeq, Or.inr ⟨hflageq ▸ hflag4, rfl, ?_, C, hmaxeq ▸ hmax4, hge, ?_⟩⟩
    · simp [hcallseq]
    · simp [hsk]
  · rw [if_neg hse]
    rw [Bool.not_eq_true] at hse
    refine ⟨hmaxeq, Or.inl ⟨hflageq, hcallseq, fun _ _ => by rw [hsk]; assumption, ?_⟩⟩
    intro hflag C hmax hlt
    have hflag4 : s4.frequency_sketch_enabled = false := hflageq ▸ hflag
    exact should_enable_false_elim hse hflag4 (hmaxeq ▸ hmax)

theorem handle_insert_sketchStep {s sf : Cache K V} {k : K} {hash w : Nat}
    (h : Cache.handle_insert k hash w s = some sf) : SketchStep s sf := by
  simp only [Cache.handle_insert] at h
  by_cases hfree : s.has_enough_capacity w s.entry_count = true
  · rw [if_pos hfree] at h
    rcases hl : mapLookup k s.cache with _ | entry
    · rw [hl] at h
      exact absurd h (by simp)
    · rw [hl] at h
      simp only [Deques.push_back_ao, Option.some.injEq] at h
      subst h
      exact sketchStep_enable_step rfl rfl rfl rfl
  · rw [if_neg hfree] at h
    by_cases hbig : (match s.max_capacity with
        | some max => decide (w > max)
        | none => false) = true
    · rw [if_pos hbig] at h
      simp only [Option.some.injEq] at h
      subst h
      exact ⟨rfl, Or.inl ⟨rfl, rfl, fun _ h2 => h2, fun _ _ _ h3 => h3⟩⟩
    · rw [if_neg hbig] at h
      rcases hadm : Cache.admit
          ((EntrySizeAndFrequency.new (w : Nat)).add_frequency s.frequency_sketch hash)
          s.cache s.deques s.frequency_sketch with vns | _
      · simp only [hadm] at h
        rcases hrv : removeVictims vns s with _ | s3
        · rw [hrv] at h
          exact absurd h (by simp)
        · rw [hrv] at h
          simp only [Option.some_bind] at h
          obtain ⟨f1, f2, f3, f4, f5⟩ := removeVictims_frame vns hrv
          rcases hl : mapLookup k s3.cache with _ | entry
          · rw [hl] at h
            exact absurd h (by simp)
          · rw [hl] at h
            simp only [Deques.push_back_ao, Option.some.injEq] at h
            subst h
            exact sketchStep_enable_step f1 f3 f4 f2
      · simp only [hadm, Option.some.injEq] at h
        subst h
        exact ⟨rfl, Or.inl ⟨rfl, rfl, fun _ h2 => h2, fun _ _ _ h3 => h3⟩⟩

theorem sketchStep_of_frame {s s1 : Cache K V}
    (a : s1.max_capacity = s.max_capacity)
    (b : s1.frequency_sketch = s.frequency_sketch)
    (c : s1.frequency_sketch_enabled = s.frequency_sketch_enabled)
    (d : s1.sketch_enable_calls = s.sketch_enable_calls)
    (e : s1.entry_count ≤ s.entry_count) : SketchStep s s1 := by
  refine ⟨a, Or.inl ⟨c, d, fun _ hemp => b.trans hemp, ?_⟩⟩
  intro _ C _ hlt
  omega

theorem sketchStep_comp_frame {s s0 sf : Cache K V}
    (a : s0.max_capacity = s.max_capacity)
    (b : s0.frequency_sketch = s.frequency_sketch)
    (c : s0.frequency_sketch_enabled = s.frequency_sketch_enabled)
    (d : s0.sketch_enable_calls = s.sketch_enable_calls)
    (e : s0.entry_count ≤ s.entry_count)
    (hs : SketchStep s0 sf) : SketchStep s sf := by
  obtain ⟨m, hdisj⟩ := hs
  refine ⟨m.trans a, ?_⟩
  rcases hdisj with ⟨x1, x2, x3, x4⟩ | ⟨x1, x2, x3, C, hC, hge, hsk⟩
  · refine Or.inl ⟨x1.trans c, x2.trans d, ?_, ?_⟩
    · intro hfl hemp
      exact x3 (c.trans hfl) (b.trans hemp)
    · intro hfl C hC hlt
      exact x4 (c.trans hfl) C (a.trans hC) (by omega)
  · refine Or.inr ⟨c.symm.trans x1, x2, x3.trans (by rw [d]), C, a.symm.trans hC, hge, ?_⟩
    rw [hsk, b]

/-- Every public operation changes the sketch-related state only as
`SketchStep` allows, on every state (no invariant needed). -/
theorem sketchStep_applyOp {s sf : Cache K V} (hf : K → Nat) (op : Op K V)
    (h : applyOp hf op s = some sf) : SketchStep s sf := by
  cases op with
  | contains_key k =>
    simp only [applyOp, Cache.contains_key] at h
    rcases he : s.evict_lru_entries with _ | s0
    · rw [he] at h
      exact absurd h (by simp)
    · rw [he] at h
      simp only [Option.map_some', Option.some.injEq] at h
      obtain ⟨f1, f2, f3, f4, f5⟩ := evict_frame he
      subst h
      exact sketchStep_of_frame f1 f2 f3 f4 f5
  | get k =>
    simp only [applyOp, Cache.get] at h
    rcases he : s.evict_lru_entries with _ | s0
    · rw [he] at h
      exact absurd h (by simp)
    · rw [he] at h
      simp only [Option.some_bind] at h
      obtain ⟨f1, f2, f3, f4, f5⟩ := evict_frame he
      rcases hl : mapLookup k s0.cache with _ | entry
      · simp only [hl, Option.map_some', Option.some.injEq] at h
        subst h
        refine ⟨f1, Or.inl ⟨f3, f4, ?_, ?_⟩⟩
        · intro hfl hemp
          show (s0.frequency_sketch.increment (hf k)) = FrequencySketch.empty
          rw [f2, hemp]
          exact increment_empty _
        · intro _ C _ hlt
          show s0.entry_count < C / 2
          omega
      · simp only [hl] at h
        rcases hmtb : Cache.record_hit s0.deques entry with _ | dqs
        · simp only [Cache.record_hit] at hmtb
          rw [show Cache.record_hit s0.deques entry = none from hmtb] at h
          · exact absurd h (by simp)
        · rw [hmtb] at h
          simp only [Option.map_some', Option.some.injEq] at h
          subst h
          refine ⟨f1, Or.inl ⟨f3, f4, ?_, ?_⟩⟩
          · intro hfl hemp
            show (s0.frequency_sketch.increment (hf k)) = FrequencySketch.empty
            rw [f2, hemp]
            exact increment_empty _
          · intro _ C _ hlt
            show s0.entry_count < C / 2
            omega
  | insert k v =>
    simp only [applyOp, Cache.insert] at h
    rcases he : s.evict_lru_entries with _ | s0
    · rw [he] at h
      exact absurd h (by simp)
    · rw [he] at h
      simp only [Option.some_bind] at h
      obtain ⟨f1, f2, f3, f4, f5⟩ := evict_frame he
      rcases hr1 : (mapInsert k (ValueEntry.new v) s0.cache).1 with _ | old
      · simp only [hr1] at h
        have hstep := handle_insert_sketchStep h
        exact sketchStep_comp_frame f1 f2 f3 f4 f5 hstep
      · simp only [hr1] at h
        simp only [Cache.handle_update] at h
        rcases hl2 : mapLookup k (mapInsert k (ValueEntry.new v) s0.cache).2 with _ | entry
        · rw [hl2] at h
          exact absurd h (by simp)
        · simp only [hl2] at h
          rcases hmtb : Deques.move_to_back_ao (V := V) s0.deques
              (entry.replace_deq_nodes_with old) with _ | dqs
          · rw [hmtb] at h
            exact absurd h (by simp)
          · rw [hmtb] at h
            simp only [Option.map_some', Option.some.injEq] at h
            subst h
            exact sketchStep_of_frame f1 f2 f3 f4 f5
  | remove k =>
    simp only [applyOp, Cache.remove] at h
    rcases he : s.evict_lru_entries with _ | s0
    · rw [he] at h
      exact absurd h (by simp)
    · rw [he] at h
      simp only [Option.some_bind] at h
      obtain ⟨f1, f2, f3, f4, f5⟩ := evict_frame he
      rcases hrm : mapRemove k s0.cache with ⟨o, c1⟩
      cases o with
      | none =>
        simp only [hrm, Option.map_some', Option.some.injEq] at h
        subst h
        exact sketchStep_of_frame f1 f2 f3 f4 f5
      | some entry =>
        simp only [hrm] at h
        rcases hu : Deques.unlink_ao s0.deques entry with _ | dqs
        · simp only [hu] at h
          exact absurd h (by simp)
        · simp only [hu, Option.map_some', Option.some.injEq] at h
          subst h
          refine sketchStep_of_frame f1 f2 f3 f4 ?_
          show s0.entry_count - 1 ≤ s.entry_count
          omega
  | invalidate k =>
    simp only [applyOp, Cache.invalidate] at h
    rcases he : s.evict_lru_entries with _ | s0
    · rw [he] at h
      exact absurd h (by simp)
    · rw [he] at h
      simp only [Option.some_bind] at h
      obtain ⟨f1, f2, f3, f4, f5⟩ := evict_frame he
      rcases hrm : mapRemove k s0.cache with ⟨o, c1⟩
      cases o with
      | none =>
        simp only [hrm, Option.some.injEq] at h
        subst h
        exact sketchStep_of_frame f1 f2 f3 f4 f5
      | some entry =>
        simp only [hrm] at h
        rcases hu : Deques.unlink_ao s0.deques entry with _ | dqs
        · simp only [hu] at h
          exact absurd h (by simp)
        · simp only [hu, Option.map_some', Option.some.injEq] at h
          subst h
          refine sketchStep_of_frame f1 f2 f3 f4 ?_
          show s0.entry_count - 1 ≤ s.entry_count
          omega
  | invalidate_all =>
    simp only [applyOp, Option.some.injEq] at h
    subst h
    refine ⟨rfl, Or.inl ⟨rfl, rfl, fun _ h2 => h2, ?_⟩⟩
    intro _ C _ hlt
    show (0 : Nat) < C / 2
    omega
  | invalidate_entries_if p =>
    simp only [applyOp, Cache.invalidate_entries_if] at h
    rcases hloop : invalidateKeysLoop
        ((s.cache.filter fun kv => p kv.1 kv.2.value).map Prod.fst) 0 s with _ | ⟨s1, n1⟩
    · rw [hloop] at h
      exact absurd h (by simp)
    · rw [hloop] at h
      simp only [Option.map_some', Option.some.injEq] at h
      subst h
      obtain ⟨f1, f2, f3, f4, f5⟩ := invalidateKeysLoop_frame _ hloop
      refine sketchStep_of_frame f1 f2 f3 f4 ?_
      show s1.entry_count - n1 ≤ s.entry_count
      omega

/-- Removing the keys of a prefix of probation nodes from the hash table, in
order (the cumulative effect of the eviction loop on the table). -/
def removeSeq (l : List (KeyHashDate K)) (cache : List (K × ValueEntry K V)) :
    List (K × ValueEntry K V) :=
  l.foldl (fun c kh => (mapRemove kh.key c).2) cache

/-- Full characterisation of the eviction loop on a consistent table/deque
pair: it evicts exactly `min (remaining weight) (min (deque length) fuel)`
entries, from the front of probation and out of the hash table, and counts
them. -/
theorem evictLoop_spec (fuel : Nat) :
    ∀ (prob : List (KeyHashDate K)) (cache : List (K × ValueEntry K V)) (ec ew w2e : Nat),
    (prob.map KeyHashDate.key).Nodup →
    (∀ kh ∈ prob, ∃ e, mapLookup kh.key cache = some e ∧
      e.access_order_q_node = some (CacheRegion.mainProbation, kh)) →
    evictLoop w2e fuel prob cache ec ew =
      some (prob.drop (min (w2e - ew) (min prob.length fuel)),
            removeSeq (prob.take (min (w2e - ew) (min prob.length fuel))) cache,
            ec + min (w2e - ew) (min prob.length fuel)) := by
  induction fuel with
  | zero =>
    intro prob cache ec ew w2e h1 h2
    simp [evictLoop, removeSeq]
  | succ fuel ih =>
    intro prob cache ec ew w2e h1 h2
    by_cases hstop : ew ≥ w2e
    · have hn : min (w2e - ew) (min prob.length (fuel + 1)) = 0 := by omega
      rw [hn]
      simp [evictLoop, hstop, removeSeq]
    · cases prob with
      | nil =>
        have hn : min (w2e - ew) (min ([] : List (KeyHashDate K)).length (fuel + 1)) = 0 := by
          simp
        rw [hn]
        simp [evictLoop, hstop, removeSeq]
      | cons hd tl =>
        obtain ⟨e, he, hnd⟩ := h2 hd (List.mem_cons_self _ _)
        have hrm : mapRemove hd.key cache = (some e, (mapRemove hd.key cache).2) := by
          rcases hx : mapRemove hd.key cache with ⟨o, c1⟩
          have ho : o = some e := by
            have := @mapRemove_fst K V _ hd.key cache
            rw [hx] at this
            rw [← he]
            exact this
          rw [ho]
        have hu : Deques.unlink_ao_from_probation (V := V) (hd :: tl) e = some tl := by
          simp [Deques.unlink_ao_from_probation, hnd, List.erase_cons_head]
        have h1t : (tl.map KeyHashDate.key).Nodup := (List.nodup_cons.1 h1).2
        have hdnot : hd.key ∉ tl.map KeyHashDate.key := (List.nodup_cons.1 h1).1
        have h2t : ∀ kh ∈ tl, ∃ e2, mapLookup kh.key (mapRemove hd.key cache).2 = some e2 ∧
            e2.access_order_q_node = some (CacheRegion.mainProbation, kh) := by
          intro kh hm
          have hkne : kh.key ≠ hd.key := by
            intro heq
            exact hdnot (heq ▸ List.mem_map_of_mem KeyHashDate.key hm)
          obtain ⟨e2, he2, hn2⟩ := h2 kh (List.mem_cons_of_mem _ hm)
          exact ⟨e2, (mapLookup_mapRemove_ne hkne).trans he2, hn2⟩
        have hrec := ih tl (mapRemove hd.key cache).2 (ec + 1) (ew + e.policy_weight) w2e h1t h2t
        rw [evictLoop]
        rw [if_neg (by omega)]
        simp only [List.head?]
        rw [hrm]
        simp only [hu]
        rw [hrec]
        have hw : e.policy_weight = 1 := rfl
        rw [hw]
        have harith : min (w2e - ew) (min (hd :: tl).length (fuel + 1)) =
            min (w2e - (ew + 1)) (min tl.length fuel) + 1 := by
          simp only [List.length_cons]
          omega
        rw [harith]
        have hdrop : (hd :: tl).drop (min (w2e - (ew + 1)) (min tl.length fuel) + 1) =
            tl.drop (min (w2e - (ew + 1)) (min tl.length fuel)) := rfl
        have htake : removeSeq ((hd :: tl).take
              (min (w2e - (ew + 1)) (min tl.length fuel) + 1)) cache =
            removeSeq (tl.take (min (w2e - (ew + 1)) (min tl.length fuel)))
              (mapRemove hd.key cache).2 := rfl
        rw [hdrop, htake]
        have hec : ec + 1 + min (w2e - (ew + 1)) (min tl.length fuel) =
            ec + (min (w2e - (ew + 1)) (min tl.length fuel) + 1) := by omega
        rw [hec]

/-- Characterisation of `evict_lru_entries` on any consistent state: exactly
`min weights_to_evict (min |probation| EVICTION_BATCH_SIZE)` entries leave,
from the LRU front, and `entry_count` drops by that number. -/
theorem evict_lru_entries_spec {s : Cache K V}
    (h1 : (s.deques.probation.map KeyHashDate.key).Nodup)
    (h2 : ∀ kh ∈ s.deques.probation, ∃ e, mapLookup kh.key s.cache = some e ∧
      e.access_order_q_node = some (CacheRegion.mainProbation, kh)) :
    s.evict_lru_entries = some
      { s with
        cache := (removeSeq (s.deques.probation.take
          (min s.weights_to_evict (min s.deques.probation.length EVICTION_BATCH_SIZE))) s.cache)
        deques := { s.deques with probation := (s.deques.probation.drop
          (min s.weights_to_evict (min s.deques.probation.length EVICTION_BATCH_SIZE))) }
        entry_count := (s.entry_count -
          min s.weights_to_evict (min s.deques.probation.length EVICTION_BATCH_SIZE)) } := by
  unfold Cache.evict_lru_entries
  rw [evictLoop_spec EVICTION_BATCH_SIZE s.deques.probation s.cache 0 0 s.weights_to_evict h1 h2]
  simp only [Nat.sub_zero, Nat.zero_add]

/-- `evict_lru_entries` is the identity on an empty cache. -/
theorem evict_id_zero {s : Cache K V} (h : s.entry_count = 0) :
    s.evict_lru_entries = some s := by
  have hw : s.weights_to_evict = 0 := by
    unfold Cache.weights_to_evict
    cases hc : s.max_capacity <;> simp [h]
  unfold Cache.evict_lru_entries
  rw [hw, evictLoop_w2e_zero]
  simp

/-- `invalidate` produces exactly the `remove` state, discarding the value
(no hypotheses: they agree on every state, panics included). -/
theorem invalidate_is_remove_step (k : K) (s : Cache K V) :
    Cache.invalidate k s = (Cache.remove k s).map Prod.fst := by
  unfold Cache.invalidate Cache.remove
  rcases he : s.evict_lru_entries with _ | s0
  · simp
  · simp only [Option.some_bind]
    rcases hrm : mapRemove k s0.cache with ⟨o, c1⟩
    cases o with
    | none => simp
    | some entry =>
      rcases hu : Deques.unlink_ao s0.deques entry with _ | dqs <;> simp [hu]

theorem runOps_max {hf : K → Nat} (ops : List (Op K V)) :
    ∀ {s s1 : Cache K V}, runOps hf s ops = some s1 → s1.max_capacity = s.max_capacity := by
  induction ops with
  | nil =>
    intro s s1 h
    simp only [runOps, Option.some.injEq] at h
    subst h
    rfl
  | cons op rest ih =>
    intro s s1 h
    simp only [runOps] at h
    rcases ha : applyOp hf op s with _ | s2
    · rw [ha] at h
      exact absurd h (by simp)
    · rw [ha] at h
      simp only [Option.some_bind] at h
      exact (ih h).trans (sketchStep_applyOp hf op ha).1

/-- `maybeEnable` does nothing once the sketch is enabled. -/
theorem maybeEnable_id_of_enabled {s : Cache K V}
    (h : s.frequency_sketch_enabled = true) : maybeEnable s = s := by
  unfold maybeEnable
  rw [if_neg]
  unfold Cache.should_enable_frequency_sketch
  rw [if_pos (by simp [h])]
  simp

/-- C1: For every sequence of public operations on a cache built with
`max_capacity = C`, on return from any public method the global size
invariant holds: `entry_count ≤ C`, `entry_count` equals the number of
entries in the hash table, which equals the number of nodes in the probation
deque, while the window and protected deques are empty. -/
theorem c1_global_size_invariant {K V : Type} [DecidableEq K] (hf : K → Nat) (C : Nat)
    (ops : List (Op K V)) (s1 : Cache K V)
    (h : runOps hf (Cache.with_everything (some C) none) ops = some s1) :
    s1.entry_count ≤ C ∧
    s1.entry_count = s1.cache.length ∧
    s1.entry_count = s1.deques.probation.length ∧
    s1.deques.window = [] ∧
    s1.deques.protectedQ = [] := by
  have hinv := runOps_inv_of_eq (inv_init (some C) none) h
  have hmax : s1.max_capacity = some C := runOps_max ops h
  exact ⟨hinv.under_cap_of_some hmax, hinv.count_table, hinv.count_prob,
    hinv.window_nil, hinv.protected_nil⟩

/-- C1 witness: a concrete run of public operations at capacity 2. -/
theorem c1_global_size_invariant_witness :
    (runOps (fun k : Nat => k) (Cache.with_everything (some 2) none)
      [Op.insert 1 (10 : Nat), Op.get 1, Op.insert 2 20, Op.remove 1]).elim False
      (fun s1 => s1.entry_count ≤ 2 ∧ s1.entry_count = s1.cache.length ∧
        s1.entry_count = s1.deques.probation.length ∧ s1.deques.window = [] ∧
        s1.deques.protectedQ = []) := by
  rcases hrun : runOps (fun k : Nat => k) (Cache.with_everything (some 2) none)
      [Op.insert 1 (10 : Nat), Op.get 1, Op.insert 2 20, Op.remove 1] with _ | s1
  · exact absurd hrun (by decide)
  · rw [Option.elim_some]
    exact c1_global_size_invariant (fun k : Nat => k) 2 _ s1 hrun

/-- C2: On a fresh insert with no free capacity and a unit weight that fits
`max_capacity`, admission admits iff the collected victims (at most the
probation head, by unit weights) weigh at least the candidate and the
candidate's sketch frequency strictly exceeds theirs; on admission every
collected victim leaves the hash table and probation and the candidate is
linked at the probation tail; on rejection the candidate's key is rolled back
out of the hash table and the victims stay.  (Stated with the sketch already
enabled, which holds in every reachable full state.) -/
theorem c2_admission_protocol {K V : Type} [DecidableEq K] {s : Cache K V} (hf : K → Nat)
    (k : K) (v : V) {C : Nat} (inv : Inv s)
    (henabled : s.frequency_sketch_enabled = true)
    (hfresh : mapLookup k s.cache = none)
    (hmax : s.max_capacity = some C)
    (hnofree : ¬ (s.entry_count + 1 ≤ C))
    (hfit : 1 ≤ C) :
    ( Cache.admit ((EntrySizeAndFrequency.new 1).add_frequency s.frequency_sketch (hf k))
        s.cache s.deques s.frequency_sketch =
      match s.deques.probation with
      | [] => AdmissionResult.rejected
      | hd :: _ =>
        if s.frequency_sketch.frequency hd.hash < s.frequency_sketch.frequency (hf k)
        then AdmissionResult.admitted [hd] else AdmissionResult.rejected) ∧
    (s.deques.probation = [] → Cache.insert hf k v s = some s) ∧
    (∀ hd tl, s.deques.probation = hd :: tl →
      (s.frequency_sketch.frequency hd.hash < s.frequency_sketch.frequency (hf k) →
        Cache.insert hf k v s = some
          { s with
            cache := ((mapRemove hd.key s.cache).2 ++
              [(k, ⟨v, some (CacheRegion.mainProbation, ⟨k, hf k⟩)⟩)])
            deques := { s.deques with probation := (tl ++ [⟨k, hf k⟩]) }
            entry_count := s.entry_count }) ∧
      (¬ (s.frequency_sketch.frequency hd.hash < s.frequency_sketch.frequency (hf k)) →
        Cache.insert hf k v s = some s)) := by
  have hnof : s.has_enough_capacity 1 s.entry_count = false := by
    rw [has_enough_capacity_def, hmax]
    exact decide_eq_false hnofree
  refine ⟨admit_unit s.cache s.deques s.frequency_sketch (hf k), ?_, ?_⟩
  · intro hp
    exact insert_fresh_rejected_eq inv hfresh hnof hmax hfit (by rw [hp]; trivial)
  · intro hd tl hp
    constructor
    · intro hfreq
      have heq := insert_fresh_admitted_eq (v := v) inv hfresh hnof hmax hfit hp hfreq
      rw [heq]
      have hec1 : 1 ≤ s.entry_count := by
        rw [inv.count_prob, hp]
        simp
      have henabled2 : (freshLinkState hf k v
          { s with cache := (mapRemove hd.key s.cache).2
                   deques := { s.deques with probation := s.deques.probation.erase hd }
                   entry_count := s.entry_count - 1 }).frequency_sketch_enabled = true :=
        henabled
      rw [maybeEnable_id_of_enabled henabled2]
      simp only [freshLinkState, hp, List.erase_cons_head]
      rw [show s.entry_count - 1 + 1 = s.entry_count from by omega]
    · intro hfreq
      exact insert_fresh_rejected_eq inv hfresh hnof hmax hfit (by rw [hp]; exact hfreq)

/-- Concrete state for the C2 witness: capacity 1, full, sketch enabled with
frequency 3 recorded for hash 7. -/
def c2w : Cache Nat Nat :=
  { max_capacity := some 1
    entry_count := 1
    cache := [(5, ⟨50, some (CacheRegion.mainProbation, ⟨5, 5⟩)⟩)]
    deques := ⟨[], [⟨5, 5⟩], []⟩
    frequency_sketch := ⟨128, [(7, 3)], 0⟩
    frequency_sketch_enabled := true
    sketch_enable_calls := 1 }

/-- C2 witness: inserting hot key 7 into the full `c2w` evicts the cold
probation head 5 and links 7 at the tail. -/
theorem c2_admission_protocol_witness :
    Inv c2w ∧ mapLookup 7 c2w.cache = none ∧ ¬ (c2w.entry_count + 1 ≤ 1) ∧
    (Cache.insert (fun x : Nat => x) 7 70 c2w).map
      (fun t => (t.entry_count, keysOf t.cache, t.deques.probation.map KeyHashDate.key)) =
      some (1, [7], [7]) := by
  have hinv : Inv c2w := ⟨by decide, by decide, by decide, by decide, by decide, by decide,
    by decide, by decide, by decide, by decide⟩
  refine ⟨hinv, by decide, by decide, ?_⟩
  have h := (c2_admission_protocol (fun x : Nat => x) 7 70 hinv rfl (by decide) rfl
    (by decide) (by decide)).2.2 ⟨5, 5⟩ [] rfl
  rw [h.1 (by decide)]
  decide

/-- Concrete overshooting-but-consistent state used for C3: two entries, a
capacity of one. -/
def c3w : Cache Nat Nat :=
  { max_capacity := some 1
    entry_count := 2
    cache := [(1, ⟨10, some (CacheRegion.mainProbation, ⟨1, 1⟩)⟩),
              (2, ⟨20, some (CacheRegion.mainProbation, ⟨2, 2⟩)⟩)]
    deques := ⟨[], [⟨1, 1⟩, ⟨2, 2⟩], []⟩
    frequency_sketch := FrequencySketch.empty
    frequency_sketch_enabled := false
    sketch_enable_calls := 0 }

/-- C3 counterexample: `invalidate_entries_if` is a public mutating operation
that does NOT run `evict_lru_entries` at its start.  From `c3w` (entry_count
2 over capacity 1) a no-op predicate invalidation leaves `entry_count = 2`,
while the sweep from the same state would have evicted one entry; composing
the sweep first gives a different result. -/
theorem c3_sweep_not_universal_cex :
    Cache.invalidate_entries_if (fun _ _ => false) c3w = some c3w ∧
    c3w.entry_count = 2 ∧
    (Cache.evict_lru_entries c3w).map (fun t => t.entry_count) = some 1 ∧
    Cache.invalidate_entries_if (fun _ _ => false) c3w ≠
      (Cache.evict_lru_entries c3w).bind (Cache.invalidate_entries_if (fun _ _ => false)) := by
  refine ⟨by decide, rfl, by decide, by decide⟩

/-- C3 (amended): `evict_lru_entries` — which runs at the start of
`contains_key`, `get`, `insert`, `remove` and `invalidate`, though not of
`invalidate_all` or `invalidate_entries_if` — removes entries from the front
(LRU end) of the probation deque and from the hash table, iterating at most
`EVICTION_BATCH_SIZE = 100` times, stopping as soon as the evicted weight
reaches `max(0, entry_count - max_capacity)` (0 when `max_capacity` is
absent) or the deque is empty, and finally decrements `entry_count` by the
number of entries evicted: on any consistent state it removes exactly
`min weights_to_evict (min |probation| 100)` entries, the probation prefix of
that length, and their keys from the table. -/
theorem c3_evict_batched_characterisation {K V : Type} [DecidableEq K] {s : Cache K V}
    (h1 : (s.deques.probation.map KeyHashDate.key).Nodup)
    (h2 : probConsistent s = true) :
    s.evict_lru_entries = some
      { s with
        cache := (removeSeq (s.deques.probation.take
          (min s.weights_to_evict (min s.deques.probation.length EVICTION_BATCH_SIZE))) s.cache)
        deques := { s.deques with probation := (s.deques.probation.drop
          (min s.weights_to_evict (min s.deques.probation.length EVICTION_BATCH_SIZE))) }
        entry_count := (s.entry_count -
          min s.weights_to_evict (min s.deques.probation.length EVICTION_BATCH_SIZE)) } ∧
    (∀ k1 : K, Cache.contains_key k1 s =
      (s.evict_lru_entries).map fun s1 => (s1, (mapLookup k1 s1.cache).isSome)) ∧
    (∀ (hf : K → Nat) (k1 : K) (v1 : V), Cache.insert hf k1 v1 s =
      (s.evict_lru_entries).bind fun s1 =>
        match (mapInsert k1 (ValueEntry.new v1) s1.cache).1 with
        | some old_entry =>
          Cache.handle_update k1 1 old_entry { s1 with cache := (mapInsert k1 (ValueEntry.new v1) s1.cache).2 }
        | none =>
          Cache.handle_insert k1 (hf k1) 1 { s1 with cache := (mapInsert k1 (ValueEntry.new v1) s1.cache).2 }) := by
  refine ⟨evict_lru_entries_spec h1 (probConsistent_eq_true.1 h2), fun k1 => rfl, fun hf k1 v1 => rfl⟩

/-- C3 witness: on `c3w` the sweep evicts exactly one entry (the LRU head,
key 1). -/
theorem c3_evict_batched_characterisation_witness :
    (c3w.deques.probation.map KeyHashDate.key).Nodup ∧ probConsistent c3w = true ∧
    (Cache.evict_lru_entries c3w).map
      (fun t => (t.entry_count, keysOf t.cache, t.deques.probation.map KeyHashDate.key)) =
      some (1, [2], [2]) := by
  refine ⟨by decide, by decide, ?_⟩
  have h := (c3_evict_batched_characterisation (s := c3w) (by decide) (by decide)).1
  rw [h]
  decide

/-- C4: `get(k)` first runs the (identity-under-invariant) eviction sweep and
then increments the frequency sketch for `hash(k)` regardless of hit or
miss; on a hit the entry's node moves to the tail of the probation deque and
a borrow of the value is returned, otherwise `none`. -/
theorem c4_get_behaviour {K V : Type} [DecidableEq K] {s : Cache K V} (hf : K → Nat)
    (k : K) (inv : Inv s) :
    (mapLookup k s.cache = none →
      Cache.get hf k s = some
        ({ s with frequency_sketch := s.frequency_sketch.increment (hf k) }, none)) ∧
    (∀ e kh, mapLookup k s.cache = some e →
      e.access_order_q_node = some (CacheRegion.mainProbation, kh) →
      Cache.get hf k s = some
        ({ s with frequency_sketch := s.frequency_sketch.increment (hf k)
                  deques := { s.deques with
                              probation := (s.deques.probation.erase kh ++ [kh]) } },
         some e.value)) := by
  exact ⟨fun h => get_eq_of_none inv h, fun e kh h hn => get_eq_of_some inv h hn⟩

/-- Concrete invariant state for read-path witnesses: two entries, sketch
enabled. -/
def c4w : Cache Nat Nat :=
  { max_capacity := some 4
    entry_count := 2
    cache := [(1, ⟨10, some (CacheRegion.mainProbation, ⟨1, 1⟩)⟩),
              (2, ⟨20, some (CacheRegion.mainProbation, ⟨2, 2⟩)⟩)]
    deques := ⟨[], [⟨1, 1⟩, ⟨2, 2⟩], []⟩
    frequency_sketch := ⟨128, [], 0⟩
    frequency_sketch_enabled := true
    sketch_enable_calls := 1 }

/-- C4 witness: a hit on key 1 bumps its counter, moves its node to the
probation tail, and returns the value. -/
theorem c4_get_behaviour_witness :
    Inv c4w ∧ mapLookup 1 c4w.cache =
      some ⟨10, some (CacheRegion.mainProbation, ⟨1, 1⟩)⟩ ∧
    (Cache.get (fun x : Nat => x) 1 c4w).map
      (fun t => (t.2, t.1.deques.probation.map KeyHashDate.key,
        t.1.frequency_sketch.counters)) =
      some (some 10, [2, 1], [(1, 1)]) := by
  have hinv : Inv c4w := ⟨by decide, by decide, by decide, by decide, by decide, by decide,
    by decide, by decide, by decide, by decide⟩
  refine ⟨hinv, by decide, ?_⟩
  have h := (c4_get_behaviour (fun x : Nat => x) 1 hinv).2
    ⟨10, some (CacheRegion.mainProbation, ⟨1, 1⟩)⟩ ⟨1, 1⟩ (by decide) rfl
  rw [h]
  decide

/-- C5: After `invalidate_all` the cache is empty (`entry_count = 0`, empty
table, cleared deques) and a subsequent `get` of any key returns `none`;
moreover the resulting state is computed in phase 1, before the old table's
value destructors run: it does not depend on the stored entries at all, so a
panicking destructor cannot leave the cache in a non-empty state. -/
theorem c5_invalidate_all_empty {K V : Type} [DecidableEq K] (s t : Cache K V)
    (hf : K → Nat) (k : K) :
    (s.invalidate_all).entry_count = 0 ∧
    (s.invalidate_all).cache = [] ∧
    (s.invalidate_all).deques = Deques.empty ∧
    ((Cache.get hf k s.invalidate_all).map Prod.snd = some none) ∧
    (s.max_capacity = t.max_capacity → s.frequency_sketch = t.frequency_sketch →
      s.frequency_sketch_enabled = t.frequency_sketch_enabled →
      s.sketch_enable_calls = t.sketch_enable_calls →
      s.invalidate_all = t.invalidate_all) := by
  refine ⟨rfl, rfl, rfl, ?_, ?_⟩
  · have hid : (s.invalidate_all).evict_lru_entries = some s.invalidate_all :=
      evict_id_zero rfl
    simp [Cache.get, hid, mapLookup]
  · intro h1 h2 h3 h4
    simp only [Cache.invalidate_all]
    rw [h1, h2, h3, h4]

/-- C5 witness: two caches with different contents collapse to the same empty
state, and a subsequent `get` misses. -/
theorem c5_invalidate_all_empty_witness :
    (Cache.invalidate_all c4w).entry_count = 0 ∧
    ((Cache.get (fun x : Nat => x) 1 (Cache.invalidate_all c4w)).map Prod.snd = some none) ∧
    Cache.invalidate_all c4w =
      Cache.invalidate_all { c4w with
        cache := [(9, ⟨99, none⟩)]
        entry_count := 1
        deques := ⟨[], [⟨9, 9⟩], []⟩ } := by
  have h := c5_invalidate_all_empty c4w
    { c4w with
      cache := [(9, ⟨99, none⟩)]
      entry_count := 1
      deques := ⟨[], [⟨9, 9⟩], []⟩ }
    (fun x : Nat => x) 1
  exact ⟨h.1, h.2.2.2.1, h.2.2.2.2 rfl rfl rfl rfl⟩

/-- C6: `insert(k, v)` on a present key runs the update path: the new entry
steals the old entry's tagged node handle, that node moves to the tail of its
deque (probation), the old value is replaced by `v`, and `entry_count`, the
sketch and the set of keys are unchanged — no admission, no victims. -/
theorem c6_insert_update_path {K V : Type} [DecidableEq K] {s : Cache K V} (hf : K → Nat)
    (k : K) (v : V) (inv : Inv s) :
    ∀ old kh, mapLookup k s.cache = some old →
      old.access_order_q_node = some (CacheRegion.mainProbation, kh) →
      Cache.insert hf k v s = some
        { s with cache := (mapInsert k ⟨v, old.access_order_q_node⟩ s.cache).2
                 deques := { s.deques with
                             probation := (s.deques.probation.erase kh ++ [kh]) } } ∧
      mapLookup k (mapInsert k (⟨v, old.access_order_q_node⟩ : ValueEntry K V) s.cache).2 =
        some ⟨v, old.access_order_q_node⟩ ∧
      keysOf (mapInsert k (⟨v, old.access_order_q_node⟩ : ValueEntry K V) s.cache).2 =
        keysOf s.cache := by
  intro old kh h hn
  refine ⟨insert_update_eq inv h hn, mapLookup_mapInsert_self, ?_⟩
  exact keysOf_mapInsert_mem (mapLookup_isSome.1 (by simp [h]))

/-- C6 witness: updating key 1's value in `c4w` replaces the value, moves the
node to the tail, and leaves the count and key set unchanged. -/
theorem c6_insert_update_path_witness :
    Inv c4w ∧ mapLookup 1 c4w.cache =
      some ⟨10, some (CacheRegion.mainProbation, ⟨1, 1⟩)⟩ ∧
    (Cache.insert (fun x : Nat => x) 1 11 c4w).map
      (fun t => (t.entry_count, keysOf t.cache,
        (mapLookup 1 t.cache).map (fun e => e.value),
        t.deques.probation.map KeyHashDate.key)) =
      some (2, [1, 2], some 11, [2, 1]) := by
  have hinv : Inv c4w := ⟨by decide, by decide, by decide, by decide, by decide, by decide,
    by decide, by decide, by decide, by decide⟩
  refine ⟨hinv, by decide, ?_⟩
  have h := (c6_insert_update_path (fun x : Nat => x) 1 11 hinv
    ⟨10, some (CacheRegion.mainProbation, ⟨1, 1⟩)⟩ ⟨1, 1⟩ (by decide) rfl).1
  rw [h]
  decide

/-- C7: With unit policy weights the admission walk collects at most one
victim, the probation front node.  On a fresh insert into a cache at full
capacity (`entry_count = max_capacity = C ≥ 1`), either exactly the LRU-head
entry is removed and the candidate appended at the probation tail (when the
candidate's sketch frequency strictly exceeds the head's), or the cache state
is exactly what it was before the insert.  (Stated with the sketch already
enabled, which holds in every reachable full state.) -/
theorem c7_full_capacity_insert {K V : Type} [DecidableEq K] {s : Cache K V} (hf : K → Nat)
    (k : K) (v : V) {C : Nat} (inv : Inv s)
    (henabled : s.frequency_sketch_enabled = true)
    (hfresh : mapLookup k s.cache = none)
    (hmax : s.max_capacity = some C)
    (hfull : s.entry_count = C)
    (hC : 1 ≤ C) :
    (∀ vns, Cache.admit ((EntrySizeAndFrequency.new 1).add_frequency
        s.frequency_sketch (hf k)) s.cache s.deques s.frequency_sketch =
        AdmissionResult.admitted vns →
      ∃ hd tl, s.deques.probation = hd :: tl ∧ vns = [hd]) ∧
    (∀ hd tl, s.deques.probation = hd :: tl →
      (s.frequency_sketch.frequency (hf k) > s.frequency_sketch.frequency hd.hash →
        Cache.insert hf k v s = some
          { s with
            cache := ((mapRemove hd.key s.cache).2 ++
              [(k, ⟨v, some (CacheRegion.mainProbation, ⟨k, hf k⟩)⟩)])
            deques := { s.deques with probation := (tl ++ [⟨k, hf k⟩]) }
            entry_count := s.entry_count }) ∧
      (¬ (s.frequency_sketch.frequency (hf k) > s.frequency_sketch.frequency hd.hash) →
        Cache.insert hf k v s = some s)) := by
  have hnofree : ¬ (s.entry_count + 1 ≤ C) := by omega
  have hc2 := c2_admission_protocol hf k v inv henabled hfresh hmax hnofree hC
  constructor
  · intro vns hadm
    rw [hc2.1] at hadm
    revert hadm
    cases hp : s.deques.probation with
    | nil =>
      intro hadm
      exact absurd hadm (by simp)
    | cons hd tl =>
      intro hadm
      have hadm2 : (if s.frequency_sketch.frequency hd.hash <
            s.frequency_sketch.frequency (hf k)
          then AdmissionResult.admitted [hd] else AdmissionResult.rejected) =
          AdmissionResult.admitted vns := hadm
      by_cases hfq : s.frequency_sketch.frequency hd.hash < s.frequency_sketch.frequency (hf k)
      · rw [if_pos hfq] at hadm2
        refine ⟨hd, tl, rfl, ?_⟩
        have := AdmissionResult.admitted.inj hadm2
        exact this.symm
      · rw [if_neg hfq] at hadm2
        exact absurd hadm2 (by simp)
  · intro hd tl hp
    exact (hc2.2.2 hd tl hp)

/-- C7 witness: the full `c2w` either replaces its head by a hot candidate or
stays intact; here the cold candidate 8 (frequency 0) is rejected and the
state is unchanged. -/
theorem c7_full_capacity_insert_witness :
    Inv c2w ∧ mapLookup 8 c2w.cache = none ∧ c2w.entry_count = 1 ∧
    Cache.insert (fun x : Nat => x) 8 80 c2w = some c2w := by
  have hinv : Inv c2w := ⟨by decide, by decide, by decide, by decide, by decide, by decide,
    by decide, by decide, by decide, by decide⟩
  refine ⟨hinv, by decide, rfl, ?_⟩
  exact ((c7_full_capacity_insert (fun x : Nat => x) 8 80 hinv rfl (by decide) rfl rfl
    (by decide)).2 ⟨5, 5⟩ [] rfl).2 (by decide)

/-- C8: `contains_key(k)` runs the batched eviction sweep (the identity under
the invariant) and returns hash-table membership; it does not touch the
frequency sketch and does not change LRU order — the returned state is the
input state itself. -/
theorem c8_contains_key_frame {K V : Type} [DecidableEq K] {s : Cache K V} (k : K)
    (inv : Inv s) :
    Cache.contains_key k s = some (s, (mapLookup k s.cache).isSome) := by
  exact contains_key_eq inv k

/-- C8 witness: membership checks on `c4w` leave the state untouched. -/
theorem c8_contains_key_frame_witness :
    Inv c4w ∧
    Cache.contains_key 1 c4w = some (c4w, true) ∧
    Cache.contains_key 3 c4w = some (c4w, false) := by
  have hinv : Inv c4w := ⟨by decide, by decide, by decide, by decide, by decide, by decide,
    by decide, by decide, by decide, by decide⟩
  refine ⟨hinv, ?_, ?_⟩
  · rw [c8_contains_key_frame 1 hinv]
    decide
  · rw [c8_contains_key_frame 3 hinv]
    decide

/-- The sketch bookkeeping invariant: while disabled the sketch is
unallocated and `ensure_capacity` was never called; once enabled it was
called exactly once. -/
def SketchOk (s : Cache K V) : Prop :=
  (s.frequency_sketch_enabled = false →
    s.frequency_sketch = FrequencySketch.empty ∧ s.sketch_enable_calls = 0) ∧
  (s.frequency_sketch_enabled = true → s.sketch_enable_calls = 1)

/-- C9: the `frequency_sketch_enabled` flag is monotonic and enablement is
lazy: every public operation (1) keeps a true flag true (including
`invalidate_all`), (2) preserves the bookkeeping invariant `SketchOk` (so
`ensure_capacity` runs exactly once over any history), (3) keeps the flag
false and the sketch unallocated while `entry_count` stays below
`max_capacity / 2`, and (4) on the insert that first brings `entry_count` to
at least `max_capacity / 2`, sets the flag and calls
`ensure_capacity (sketch_capacity max_capacity)` exactly once. -/
theorem c9_lazy_monotonic_enablement {K V : Type} [DecidableEq K] (hf : K → Nat)
    (op : Op K V) (s s1 : Cache K V) (h : applyOp hf op s = some s1) :
    (s.frequency_sketch_enabled = true → s1.frequency_sketch_enabled = true) ∧
    (SketchOk s → SketchOk s1) ∧
    (SketchOk s → s.frequency_sketch_enabled = false → ∀ C, s.max_capacity = some C →
      s1.entry_count < C / 2 →
      s1.frequency_sketch_enabled = false ∧ s1.frequency_sketch = FrequencySketch.empty) ∧
    (s.frequency_sketch_enabled = false → ∀ C, s.max_capacity = some C →
      s.entry_count < C / 2 → C / 2 ≤ s1.entry_count →
      s1.frequency_sketch_enabled = true ∧
      s1.sketch_enable_calls = s.sketch_enable_calls + 1 ∧
      s1.frequency_sketch = s.frequency_sketch.ensure_capacity (sketch_capacity C)) := by
  obtain ⟨hm, hdisj⟩ := sketchStep_applyOp hf op h
  refine ⟨?_, ?_, ?_, ?_⟩
  · intro htrue
    rcases hdisj with ⟨x1, _, _, _⟩ | ⟨x1, _, _, _⟩
    · rw [x1, htrue]
    · rw [x1] at htrue
      exact absurd htrue (by simp)
  · intro hok
    rcases hdisj with ⟨x1, x2, x3, _⟩ | ⟨x1, x2, x3, C, hC, hge, hsk⟩
    · constructor
      · intro hoff
        rw [x1] at hoff
        obtain ⟨a, b⟩ := hok.1 hoff
        exact ⟨x3 hoff a, x2.trans b⟩
      · intro hon
        rw [x1] at hon
        exact x2.trans (hok.2 hon)
    · constructor
      · intro hoff
        rw [x2] at hoff
        exact absurd hoff (by simp)
      · intro _
        rw [x3, (hok.1 x1).2]
  · intro hok hoff C hC hlt
    rcases hdisj with ⟨x1, x2, x3, x4⟩ | ⟨x1, x2, x3, C1, hC1, hge, hsk⟩
    · exact ⟨x1.trans hoff, x3 hoff (hok.1 hoff).1⟩
    · rw [hC] at hC1
      cases Option.some.inj hC1
      omega
  · intro hoff C hC hlt hge2
    rcases hdisj with ⟨x1, x2, x3, x4⟩ | ⟨x1, x2, x3, C1, hC1, hge, hsk⟩
    · exact absurd (x4 hoff C hC hlt) (by omega)
    · rw [hC] at hC1
      cases Option.some.inj hC1
      exact ⟨x2, x3, hsk⟩

/-- The state after the C9 witness insert: one entry, sketch enabled. -/
def c9end : Cache Nat Nat :=
  { max_capacity := some 2
    entry_count := 1
    cache := [(1, ⟨10, some (CacheRegion.mainProbation, ⟨1, 1⟩)⟩)]
    deques := ⟨[], [⟨1, 1⟩], []⟩
    frequency_sketch := ⟨128, [], 0⟩
    frequency_sketch_enabled := true
    sketch_enable_calls := 1 }

/-- C9 witness: on a fresh capacity-2 cache the first insert crosses the
half-capacity threshold, enabling the sketch exactly once; the flag then
survives `invalidate_all`. -/
theorem c9_lazy_monotonic_enablement_witness :
    applyOp (fun k : Nat => k) (Op.insert 1 (10 : Nat))
      (Cache.with_everything (some 2) none) = some c9end ∧
    c9end.frequency_sketch_enabled = true ∧
    c9end.sketch_enable_calls = 1 ∧
    c9end.frequency_sketch = FrequencySketch.empty.ensure_capacity (sketch_capacity 2) ∧
    (Cache.invalidate_all c9end).frequency_sketch_enabled = true := by
  have hrun : applyOp (fun k : Nat => k) (Op.insert 1 (10 : Nat))
      (Cache.with_everything (some 2) none) = some c9end := by decide
  have h := (c9_lazy_monotonic_enablement (fun k : Nat => k) (Op.insert 1 10)
    (Cache.with_everything (some 2) none) c9end hrun).2.2.2 rfl 2 rfl (by decide) (by decide)
  have hmono := (c9_lazy_monotonic_enablement (fun k : Nat => k) Op.invalidate_all
    c9end (Cache.invalidate_all c9end) rfl).1 h.1
  exact ⟨hrun, h.1, h.2.1, h.2.2, hmono⟩

/-- C10: for every key and state, `invalidate(k)` produces exactly the same
final cache state as `remove(k)` — same sweep, same removal and unlink, same
decrement — differing only in discarding the returned value. -/
theorem c10_invalidate_refines_remove {K V : Type} [DecidableEq K] (k : K) (s : Cache K V) :
    Cache.invalidate k s = (Cache.remove k s).map Prod.fst :=
  invalidate_is_remove_step k s

end MicroMoka
